import Mathlib

/-!
A verification development for the repository's maintenance utility
`scripts/cleanup.py`.  The script removes build artifacts from a project
tree in three sequential phases:

1. for each name in `FILES_TO_CLEAN`, `os.remove(root/name)` with only
   `FileNotFoundError` caught;
2. for each name in `DIRS_TO_CLEAN`, `shutil.rmtree(root/name,
   ignore_errors=True)`;
3. `os.walk` over `root/nautilus_trader/` and `root/examples/`, deleting
   every walked file `path` with `os.path.isfile(path)` and
   `path.endswith(EXTENSIONS_TO_CLEAN)`, counting deletions, and printing
   the accumulated count.

We embed the script over an explicit model of a POSIX filesystem tree.
Paths are segment lists relative to the resolved `root_dir`.  Each entry
carries a node (regular file with content, directory, or symbolic link
with target) and a `locked` flag meaning "any unlink/rmdir attempt on
this entry fails with a permission error" — the model's stand-in for the
operating system's permission failures.
-/

namespace Cleanup

/-- A filesystem path, as the list of its segments relative to the
resolved project root (`root_dir` in the script). -/
abbrev FPath := List String

/-- A filesystem node: a regular file with contents, a directory, or a
symbolic link holding a target path. -/
inductive Node where
  | file (content : String)
  | dir
  | symlink (target : FPath)
deriving DecidableEq, Repr

/-- One filesystem entry: its path, its node, and whether removal
attempts on it fail with a permission error. -/
structure Entry where
  path : FPath
  node : Node
  locked : Bool
deriving DecidableEq, Repr

/-- A filesystem: a finite list of entries.  Well-formed filesystems
(`wfFS`) have no two entries sharing a path. -/
abbrev FS := List Entry

/-- No two entries share a path. -/
def wfFS (fs : FS) : Prop := (fs.map (·.path)).Nodup

/-- Look up the entry stored at a path. -/
def lookupE (fs : FS) (p : FPath) : Option Entry :=
  fs.find? (fun e => e.path == p)

/-- Look up the node stored at a path. -/
def lookupN (fs : FS) (p : FPath) : Option Node :=
  (lookupE fs p).map (·.node)

/-- Whether the entry stored at a path is locked (absent paths are not). -/
def lockedAt (fs : FS) (p : FPath) : Bool :=
  match lookupE fs p with
  | some e => e.locked
  | none => false

/-- Predicate `leadsTo top p`: `top` is a (not necessarily strict) prefix of `p`,
i.e. `p` is at or below `top` in the tree. -/
def leadsTo : FPath → FPath → Bool
  | [], _ => true
  | _ :: _, [] => false
  | a :: as, b :: bs => a == b && leadsTo as bs

/-- Predicate `strictUnder top p`: `p` is strictly below `top`. -/
def strictUnder (top p : FPath) : Bool :=
  leadsTo top p && !(top == p)

/-- All strict prefixes of a path, shortest first (including `[]`). -/
def properPrefixes : FPath → List FPath
  | [] => []
  | a :: as => [] :: (properPrefixes as).map (a :: ·)

/-- Follow symbolic links from a path, with fuel modelling the
operating system's symlink-chain limit (`stat` fails on a cycle, which
the model renders as `none`). -/
def resolveNode (fs : FS) : Nat → FPath → Option Node
  | 0, _ => none
  | fuel + 1, p =>
    match lookupN fs p with
    | some (.symlink t) => resolveNode fs fuel t
    | other => other

/-- Python's `os.path.isfile`: the path resolves (following symlinks) to a
regular file. -/
def isfileB (fs : FS) (p : FPath) : Bool :=
  match resolveNode fs 40 p with
  | some (.file _) => true
  | _ => false

/-- Python's `os.path.isdir`: the path resolves (following symlinks) to a
directory. -/
def isdirB (fs : FS) (p : FPath) : Bool :=
  resolveNode fs 40 p == some Node.dir

/-- The errors the script can encounter from the modelled filesystem
calls. -/
inductive OSErr where
  | fileNotFound (p : FPath)
  | isADirectory (p : FPath)
  | permission (p : FPath)
deriving DecidableEq, Repr

/-- Drop every entry stored at a path. -/
def removePath (fs : FS) (p : FPath) : FS :=
  fs.filter (fun e => !(e.path == p))

/-- Python's `os.remove`: fails with `FileNotFoundError` on an absent path, with
`IsADirectoryError` on a directory, and with `PermissionError` on a
locked entry; otherwise unlinks the entry (a symbolic link is removed
itself, its target untouched). -/
def osRemove (fs : FS) (p : FPath) : Except OSErr FS :=
  match lookupE fs p with
  | none => .error (.fileNotFound p)
  | some e =>
    match e.node with
    | .dir => .error (.isADirectory p)
    | _ => if e.locked then .error (.permission p) else .ok (removePath fs p)

/-- The file allow-list (`FILES_TO_CLEAN` in the script; a Python set
literal, modelled in its source order — no claim depends on the
iteration order). -/
def FILES_TO_CLEAN : List String :=
  [".coverage", "coverage.xml", "dump.rdb"]

/-- The directory allow-list (`DIRS_TO_CLEAN` in the script), with each
string already rendered as the relative path that `os.path.join(root,
target)` produces — in particular `"docs/build"` is the two-segment
path. -/
def DIRS_TO_CLEAN : List FPath :=
  [[".nox"], [".profile"], [".pytest_cache"], ["__pycache__"], ["build"],
   ["dist"], ["docs", "build"], ["coverage.xml"], ["dump.rdb"]]

/-- The extension allow-list (`EXTENSIONS_TO_CLEAN` in the script). -/
def EXTENSIONS_TO_CLEAN : List String :=
  [".dll", ".html", ".o", ".prof", ".pyd", ".pyc", ".so"]

/-- Render a relative path as the walk renders it, with `/` separators. -/
def pathString : FPath → String
  | [] => ""
  | [a] => a
  | a :: as => a ++ "/" ++ pathString as

/-- Python's `s.endswith(suffix)`: a literal, case-sensitive suffix
match on the character sequence. -/
def endsWithLit (s suffix : String) : Bool :=
  List.isSuffixOf suffix.toList s.toList

/-- The check `path.endswith(EXTENSIONS_TO_CLEAN)` on the absolute path the sweep
builds.  The absolute path is `root_dir ++ "/" ++ relative`; since no
configured suffix contains `/`, prefixing a single `/` decides the match
identically for every `root_dir`. -/
def matchesExt (p : FPath) : Bool :=
  EXTENSIONS_TO_CLEAN.any (fun ext => endsWithLit ("/" ++ pathString p) ext)

/-- One loop body of the file-list phase: `os.remove` inside
`try/except FileNotFoundError`. -/
def tryRemove (fs : FS) (target : String) : FS × Option OSErr :=
  match osRemove fs [target] with
  | .ok fs' => (fs', none)
  | .error (.fileNotFound _) => (fs, none)
  | .error e => (fs, some e)

/-- The file-list phase: process the targets in order; an uncaught
error aborts the remaining iterations. -/
def removeListedFiles : FS → List String → FS × Option OSErr
  | fs, [] => (fs, none)
  | fs, t :: ts =>
    match tryRemove fs t with
    | (fs', none) => removeListedFiles fs' ts
    | (fs', some e) => (fs', some e)

/-- Whether some entry at or below a path is locked. -/
def subtreeHasLocked (fs : FS) (p : FPath) : Bool :=
  fs.any (fun e => leadsTo p e.path && e.locked)

/-- Python's `shutil.rmtree(path, ignore_errors=True)`: a no-op unless the path
is a directory entry (absence, a regular file, and a symbolic link all
raise errors that `ignore_errors` suppresses).  On a directory it
best-effort deletes the subtree bottom-up: an entry is kept exactly when
some entry at or below it is locked (a locked entry survives its own
failed unlink; a directory survives when a surviving descendant leaves
it non-empty), every failure again suppressed. -/
def rmtreeIgnore (fs : FS) (p : FPath) : FS :=
  match lookupN fs p with
  | some .dir =>
      fs.filter (fun e => !(leadsTo p e.path) || subtreeHasLocked fs e.path)
  | _ => fs

/-- The directory-list phase: `rmtree` each allow-listed directory in
order; never signals an error. -/
def removeListedDirs (fs : FS) : FS :=
  DIRS_TO_CLEAN.foldl (fun f t => rmtreeIgnore f t) fs

/-- The `os.walk` file classification: a walked entry lands in the
`files` component exactly when it is not a directory (`os.path.isdir`,
which follows symlinks). -/
def walkQual (fs : FS) (top p : FPath) : Bool :=
  strictUnder top p
    && (properPrefixes p).all
        (fun q => !(leadsTo top q) || (lookupN fs q == some Node.dir))
    && !(isdirB fs p)

/-- The file paths `os.walk top` yields: entries strictly below `top`
whose every intermediate ancestor from `top` down is a real directory
(`followlinks=False`: the walk does not descend through symlinked
directories) and which are not classified as directories.  A missing
(or non-directory) `top` yields nothing, as `os.walk` suppresses the
initial `scandir` error. -/
def walkFiles (fs : FS) (top : FPath) : List FPath :=
  (fs.filter (fun e => walkQual fs top e.path)).map (·.path)

/-- The sweep loop over one walked file list: delete each path that
passes `os.path.isfile` and the suffix match, counting deletions; an
`os.remove` failure propagates immediately, keeping the state reached
so far. -/
def sweepList : FS → List FPath → Nat → FS × Nat × Option OSErr
  | fs, [], n => (fs, n, none)
  | fs, p :: ps, n =>
    if isfileB fs p && matchesExt p then
      match osRemove fs p with
      | .ok fs' => sweepList fs' ps (n + 1)
      | .error e => (fs, n, some e)
    else sweepList fs ps n

/-- The subtree root `root_dir + '/nautilus_trader/'`, relative to root. -/
def ntRoot : FPath := ["nautilus_trader"]

/-- The subtree root `root_dir + '/examples/'`, relative to root. -/
def exRoot : FPath := ["examples"]

/-- The whole extension sweep: both subtrees in order, the counter
accumulated across them; an error in the first walk skips the second. -/
def sweepTrees (fs : FS) : FS × Nat × Option OSErr :=
  match sweepList fs (walkFiles fs ntRoot) 0 with
  | (fs1, n1, none) => sweepList fs1 (walkFiles fs1 exRoot) n1
  | r => r

/-- The tail of the run after a successful file phase: the directory
phase (which cannot fail) followed by the extension sweep; the sweep's
count is printed only when no error occurred. -/
def runAfterFiles (fs1 : FS) : FS × Option Nat × Option OSErr :=
  match sweepTrees (removeListedDirs fs1) with
  | (fs3, _, some e) => (fs3, none, some e)
  | (fs3, n, none) => (fs3, some n, none)

/-- The whole script: the three phases in order.  The middle component
is the count the final `print` reports, `none` when an uncaught error
aborts the run before the summary line. -/
def cleanupRun (fs : FS) : FS × Option Nat × Option OSErr :=
  match removeListedFiles fs FILES_TO_CLEAN with
  | (fs1, some e) => (fs1, none, some e)
  | (fs1, none) => runAfterFiles fs1

/-- Whether a node is a symbolic link. -/
def isSymlinkNode : Node → Bool
  | .symlink _ => true
  | _ => false

/-- No entry is a symbolic link. -/
def noSymlinks (fs : FS) : Prop :=
  ∀ e ∈ fs, isSymlinkNode e.node = false

/-- No entry is locked. -/
def unlocked (fs : FS) : Prop := ∀ e ∈ fs, e.locked = false

/-- Every entry's every nonempty strict prefix is present as a real
directory: the filesystem is a well-founded tree. -/
def goodTree (fs : FS) : Prop :=
  ∀ e ∈ fs, ∀ q ∈ properPrefixes e.path, q ≠ [] → lookupN fs q = some Node.dir


/-- Whether a node is a regular file. -/
def isRegularFile : Node → Bool
  | .file _ => true
  | _ => false

/-- Modelled from the spec's description of the extension sweep's
deletion set (§8 of the spec): a regular file under one of the two
configured subtrees whose path ends with one of the literal configured
suffixes.  Used to compare the source-derived `sweepTrees` against the
specified behaviour. -/
def specSweepTarget (e : Entry) : Bool :=
  (strictUnder ntRoot e.path || strictUnder exRoot e.path)
    && isRegularFile e.node && matchesExt e.path

instance (fs : FS) : Decidable (wfFS fs) := by
  unfold wfFS; infer_instance

instance (fs : FS) : Decidable (noSymlinks fs) := by
  unfold noSymlinks; infer_instance

instance (fs : FS) : Decidable (unlocked fs) := by
  unfold unlocked; infer_instance

instance (fs : FS) : Decidable (goodTree fs) := by
  unfold goodTree; infer_instance

/-- A small project tree exercising the sweep: matching artifacts in
both subtrees, a non-matching source file, a stray `build/` directory
and a root `.coverage` file. -/
def demoFS : FS :=
  [⟨["nautilus_trader"], .dir, false⟩,
   ⟨["nautilus_trader", "a.so"], .file "elf", false⟩,
   ⟨["nautilus_trader", "keep.py"], .file "print(1)", false⟩,
   ⟨["nautilus_trader", "sub"], .dir, false⟩,
   ⟨["nautilus_trader", "sub", "y.pyc"], .file "pyc", false⟩,
   ⟨["examples"], .dir, false⟩,
   ⟨["examples", "z.html"], .file "html", false⟩,
   ⟨["build"], .dir, false⟩,
   ⟨["build", "stuff.txt"], .file "s", false⟩,
   ⟨[".coverage"], .file "cov", false⟩]

/-- A tree holding a symbolic link `nautilus_trader/foo.so` to the
regular file `target.txt` at the root. -/
def symlinkFS : FS :=
  [⟨["nautilus_trader"], .dir, false⟩,
   ⟨["nautilus_trader", "foo.so"], .symlink ["target.txt"], false⟩,
   ⟨["target.txt"], .file "data", false⟩]

/-- A tree where `coverage.xml` — listed in both allow-lists — exists
as a directory. -/
def dirConflictFS : FS := [⟨["coverage.xml"], .dir, false⟩]

/-- A tree where `coverage.xml` exists as a regular file. -/
def fileConflictFS : FS := [⟨["coverage.xml"], .file "xml", false⟩]

/-- A tree with a populated `build/` directory. -/
def buildDirFS : FS :=
  [⟨["build"], .dir, false⟩, ⟨["build", "x.txt"], .file "x", false⟩]

/-- A tree with a `__pycache__` directory nested below a non-listed
directory. -/
def nestedCacheFS : FS :=
  [⟨["sub"], .dir, false⟩, ⟨["sub", "__pycache__"], .dir, false⟩,
   ⟨["sub", "__pycache__", "m.txt"], .file "m", false⟩]

/-- A tree with neither sweep subtree root present. -/
def noSubtreeFS : FS := [⟨["build"], .dir, false⟩]

/-- A tree whose root `.coverage` file is permission-locked: the file
phase's unlink of it fails. -/
def lockedCovFS : FS := [⟨[".coverage"], .file "cov", true⟩]

/-- A tree whose matching artifact is permission-locked: unlinking it
fails. -/
def lockedFS : FS :=
  [⟨["nautilus_trader"], .dir, false⟩,
   ⟨["nautilus_trader", "a.so"], .file "elf", true⟩]

/-! ### Basic lookup lemmas -/

theorem lookupE_eq_none {fs : FS} {p : FPath} :
    lookupE fs p = none ↔ ∀ e ∈ fs, e.path ≠ p := by
  simp [lookupE, List.find?_eq_none]

theorem mem_of_lookupE {fs : FS} {p : FPath} {e : Entry}
    (h : lookupE fs p = some e) : e ∈ fs ∧ e.path = p := by
  refine ⟨List.mem_of_find?_eq_some h, ?_⟩
  have := List.find?_some h
  simpa using this

theorem lookupE_of_mem {fs : FS} {e : Entry} (hw : wfFS fs) (he : e ∈ fs) :
    lookupE fs e.path = some e := by
  induction fs with
  | nil => cases he
  | cons a l ih =>
    simp only [wfFS, List.map_cons, List.nodup_cons] at hw
    rcases List.mem_cons.mp he with rfl | hmem
    · simp [lookupE, List.find?_cons]
    · have hne : a.path ≠ e.path := by
        intro hq
        exact hw.1 (hq ▸ List.mem_map_of_mem (·.path) hmem)
      have := ih hw.2 hmem
      simpa [lookupE, List.find?_cons, hne] using this

theorem lookupN_of_mem {fs : FS} {e : Entry} (hw : wfFS fs) (he : e ∈ fs) :
    lookupN fs e.path = some e.node := by
  simp [lookupN, lookupE_of_mem hw he]

theorem lookupE_filter_of_keep {fs : FS} {p : FPath} {keep : Entry → Bool}
    (h : ∀ e ∈ fs, e.path = p → keep e = true) :
    lookupE (fs.filter keep) p = lookupE fs p := by
  induction fs with
  | nil => rfl
  | cons a l ih =>
    have hrest : ∀ e ∈ l, e.path = p → keep e = true :=
      fun e he => h e (List.mem_cons_of_mem a he)
    by_cases hp : a.path = p
    · have hk : keep a = true := h a (List.mem_cons_self a l) hp
      simp [lookupE, List.filter_cons, hk, List.find?_cons, hp]
    · by_cases hk : keep a = true
      · simpa [lookupE, List.filter_cons, hk, List.find?_cons, hp]
          using ih hrest
      · simp only [Bool.not_eq_true] at hk
        simpa [lookupE, List.filter_cons, hk, List.find?_cons, hp]
          using ih hrest

theorem lookupE_filter_none {fs : FS} {p : FPath} {keep : Entry → Bool}
    (h : ∀ e ∈ fs, e.path = p → keep e = false) :
    lookupE (fs.filter keep) p = none := by
  rw [lookupE_eq_none]
  intro e he hp
  have hmem := List.mem_filter.mp he
  have := h e hmem.1 hp
  rw [this] at hmem
  exact absurd hmem.2 (by simp)

theorem lookupE_removePath_self (fs : FS) (p : FPath) :
    lookupE (removePath fs p) p = none := by
  apply lookupE_filter_none
  intro e _ hp
  simp [hp]

theorem lookupE_removePath_ne {q p : FPath} (fs : FS) (h : q ≠ p) :
    lookupE (removePath fs p) q = lookupE fs q := by
  apply lookupE_filter_of_keep
  intro e _ hp
  simp [hp, h]

/-! ### Sublist monotonicity: every phase only removes entries -/

theorem removePath_sublist (fs : FS) (p : FPath) :
    (removePath fs p).Sublist fs :=
  List.filter_sublist fs

theorem rmtreeIgnore_sublist (fs : FS) (p : FPath) :
    (rmtreeIgnore fs p).Sublist fs := by
  unfold rmtreeIgnore
  cases lookupN fs p with
  | none => exact List.Sublist.refl fs
  | some n =>
    cases n with
    | dir => exact List.filter_sublist fs
    | file c => exact List.Sublist.refl fs
    | symlink t => exact List.Sublist.refl fs

theorem tryRemove_spec (fs : FS) (t : String) :
    (lookupE fs [t] = none ∧ tryRemove fs t = (fs, none)) ∨
    (∃ e, lookupE fs [t] = some e ∧ e.node = Node.dir ∧
      tryRemove fs t = (fs, some (.isADirectory [t]))) ∨
    (∃ e, lookupE fs [t] = some e ∧ e.node ≠ Node.dir ∧ e.locked = true ∧
      tryRemove fs t = (fs, some (.permission [t]))) ∨
    (∃ e, lookupE fs [t] = some e ∧ e.node ≠ Node.dir ∧ e.locked = false ∧
      tryRemove fs t = (removePath fs [t], none)) := by
  cases hL : lookupE fs [t] with
  | none => exact Or.inl ⟨rfl, by simp [tryRemove, osRemove, hL]⟩
  | some e =>
    cases hn : e.node with
    | dir =>
      exact Or.inr (Or.inl ⟨e, rfl, hn, by simp [tryRemove, osRemove, hL, hn]⟩)
    | file c =>
      by_cases hl : e.locked = true
      · exact Or.inr (Or.inr (Or.inl ⟨e, rfl, by simp [hn], hl,
          by simp [tryRemove, osRemove, hL, hn, hl]⟩))
      · simp only [Bool.not_eq_true] at hl
        exact Or.inr (Or.inr (Or.inr ⟨e, rfl, by simp [hn], hl,
          by simp [tryRemove, osRemove, hL, hn, hl]⟩))
    | symlink tg =>
      by_cases hl : e.locked = true
      · exact Or.inr (Or.inr (Or.inl ⟨e, rfl, by simp [hn], hl,
          by simp [tryRemove, osRemove, hL, hn, hl]⟩))
      · simp only [Bool.not_eq_true] at hl
        exact Or.inr (Or.inr (Or.inr ⟨e, rfl, by simp [hn], hl,
          by simp [tryRemove, osRemove, hL, hn, hl]⟩))

theorem tryRemove_sublist (fs : FS) (t : String) :
    (tryRemove fs t).1.Sublist fs := by
  rcases tryRemove_spec fs t with ⟨_, h⟩ | ⟨e, _, _, h⟩ | ⟨e, _, _, _, h⟩ |
      ⟨e, _, _, _, h⟩ <;>
    rw [h] <;>
    first
      | exact List.Sublist.refl fs
      | exact removePath_sublist fs [t]

theorem removeListedFiles_cons (fs : FS) (t : String) (ts : List String) :
    removeListedFiles fs (t :: ts) =
      match tryRemove fs t with
      | (fs', none) => removeListedFiles fs' ts
      | (fs', some e) => (fs', some e) := rfl

theorem removeListedFiles_sublist :
    ∀ (ts : List String) (fs : FS), (removeListedFiles fs ts).1.Sublist fs := by
  intro ts
  induction ts with
  | nil => intro fs; exact List.Sublist.refl fs
  | cons t rest ih =>
    intro fs
    rcases h : tryRemove fs t with ⟨fs', r⟩
    have hsub : fs'.Sublist fs := by
      have := tryRemove_sublist fs t
      rw [h] at this; exact this
    cases r with
    | none =>
      rw [removeListedFiles_cons, h]
      exact (ih fs').trans hsub
    | some e =>
      rw [removeListedFiles_cons, h]
      exact hsub

theorem removeListedDirs_sublist (fs : FS) :
    (removeListedDirs fs).Sublist fs := by
  have h : ∀ (ts : List FPath) (g : FS),
      (ts.foldl (fun f t => rmtreeIgnore f t) g).Sublist g := by
    intro ts
    induction ts with
    | nil => intro g; exact List.Sublist.refl g
    | cons t rest ih =>
      intro g
      exact (ih (rmtreeIgnore g t)).trans (rmtreeIgnore_sublist g t)
  exact h DIRS_TO_CLEAN fs

theorem sweepList_cons (fs : FS) (p : FPath) (ps : List FPath) (n : Nat) :
    sweepList fs (p :: ps) n =
      if isfileB fs p && matchesExt p then
        match osRemove fs p with
        | .ok fs' => sweepList fs' ps (n + 1)
        | .error e => (fs, n, some e)
      else sweepList fs ps n := rfl

theorem osRemove_spec (fs : FS) (p : FPath) :
    (lookupE fs p = none ∧ osRemove fs p = .error (.fileNotFound p)) ∨
    (∃ e, lookupE fs p = some e ∧ e.node = Node.dir ∧
      osRemove fs p = .error (.isADirectory p)) ∨
    (∃ e, lookupE fs p = some e ∧ e.node ≠ Node.dir ∧ e.locked = true ∧
      osRemove fs p = .error (.permission p)) ∨
    (∃ e, lookupE fs p = some e ∧ e.node ≠ Node.dir ∧ e.locked = false ∧
      osRemove fs p = .ok (removePath fs p)) := by
  cases hL : lookupE fs p with
  | none => exact Or.inl ⟨rfl, by simp [osRemove, hL]⟩
  | some e =>
    cases hn : e.node with
    | dir => exact Or.inr (Or.inl ⟨e, rfl, hn, by simp [osRemove, hL, hn]⟩)
    | file c =>
      by_cases hl : e.locked = true
      · exact Or.inr (Or.inr (Or.inl ⟨e, rfl, by simp [hn], hl,
          by simp [osRemove, hL, hn, hl]⟩))
      · simp only [Bool.not_eq_true] at hl
        exact Or.inr (Or.inr (Or.inr ⟨e, rfl, by simp [hn], hl,
          by simp [osRemove, hL, hn, hl]⟩))
    | symlink tg =>
      by_cases hl : e.locked = true
      · exact Or.inr (Or.inr (Or.inl ⟨e, rfl, by simp [hn], hl,
          by simp [osRemove, hL, hn, hl]⟩))
      · simp only [Bool.not_eq_true] at hl
        exact Or.inr (Or.inr (Or.inr ⟨e, rfl, by simp [hn], hl,
          by simp [osRemove, hL, hn, hl]⟩))

theorem sweepList_sublist :
    ∀ (l : List FPath) (fs : FS) (n : Nat), (sweepList fs l n).1.Sublist fs := by
  intro l
  induction l with
  | nil => intro fs n; exact List.Sublist.refl fs
  | cons p rest ih =>
    intro fs n
    rw [sweepList_cons]
    by_cases hg : (isfileB fs p && matchesExt p) = true
    · simp only [hg, if_true]
      rcases osRemove_spec fs p with ⟨_, h⟩ | ⟨e, _, _, h⟩ | ⟨e, _, _, _, h⟩ |
          ⟨e, _, _, _, h⟩ <;>
        rw [h] <;>
        first
          | exact List.Sublist.refl fs
          | exact (ih (removePath fs p) (n + 1)).trans (removePath_sublist fs p)
    · simp only [hg, if_false]
      exact ih fs n

theorem sweepTrees_eq (fs : FS) :
    sweepTrees fs =
      match sweepList fs (walkFiles fs ntRoot) 0 with
      | (fs1, n1, none) => sweepList fs1 (walkFiles fs1 exRoot) n1
      | r => r := rfl

theorem sweepTrees_sublist (fs : FS) : (sweepTrees fs).1.Sublist fs := by
  rcases h : sweepList fs (walkFiles fs ntRoot) 0 with ⟨fa, na, ea⟩
  have h1 : fa.Sublist fs := by
    have := sweepList_sublist (walkFiles fs ntRoot) fs 0
    rw [h] at this; exact this
  rw [sweepTrees_eq, h]
  cases ea with
  | none => exact (sweepList_sublist (walkFiles fa exRoot) fa na).trans h1
  | some e => exact h1

theorem cleanupRun_eq (fs : FS) :
    cleanupRun fs =
      match removeListedFiles fs FILES_TO_CLEAN with
      | (fs1, some e) => (fs1, none, some e)
      | (fs1, none) => runAfterFiles fs1 := rfl

theorem runAfterFiles_sublist (fs1 : FS) :
    (runAfterFiles fs1).1.Sublist fs1 := by
  rcases h2 : sweepTrees (removeListedDirs fs1) with ⟨fs3, n, r2⟩
  have hs3 : fs3.Sublist fs1 := by
    have := sweepTrees_sublist (removeListedDirs fs1)
    rw [h2] at this
    exact this.trans (removeListedDirs_sublist fs1)
  unfold runAfterFiles
  rw [h2]
  cases r2 with
  | none => exact hs3
  | some e => exact hs3

theorem cleanupRun_sublist (fs : FS) : (cleanupRun fs).1.Sublist fs := by
  rcases h1 : removeListedFiles fs FILES_TO_CLEAN with ⟨fs1, r1⟩
  have hs1 : fs1.Sublist fs := by
    have := removeListedFiles_sublist FILES_TO_CLEAN fs
    rw [h1] at this; exact this
  rw [cleanupRun_eq, h1]
  cases r1 with
  | some e => exact hs1
  | none => exact (runAfterFiles_sublist fs1).trans hs1

theorem cleanupRun_phase1_err {fs fsA : FS} {e : OSErr}
    (h : removeListedFiles fs FILES_TO_CLEAN = (fsA, some e)) :
    cleanupRun fs = (fsA, none, some e) := by
  rw [cleanupRun_eq, h]

theorem cleanupRun_phase1_ok {fs fsA : FS}
    (h : removeListedFiles fs FILES_TO_CLEAN = (fsA, none)) :
    cleanupRun fs = runAfterFiles fsA := by
  rw [cleanupRun_eq, h]

theorem runAfterFiles_sweep_err {fsA fsS : FS} {nS : Nat} {e : OSErr}
    (h : sweepTrees (removeListedDirs fsA) = (fsS, nS, some e)) :
    runAfterFiles fsA = (fsS, none, some e) := by
  unfold runAfterFiles
  rw [h]

theorem runAfterFiles_sweep_ok {fsA fsS : FS} {nS : Nat}
    (h : sweepTrees (removeListedDirs fsA) = (fsS, nS, none)) :
    runAfterFiles fsA = (fsS, some nS, none) := by
  unfold runAfterFiles
  rw [h]

theorem wfFS_sublist {fs' fs : FS} (hs : fs'.Sublist fs) (hw : wfFS fs) :
    wfFS fs' :=
  List.Nodup.sublist (hs.map (·.path)) hw

theorem noSymlinks_sublist {fs' fs : FS} (hs : fs'.Sublist fs)
    (hn : noSymlinks fs) : noSymlinks fs' :=
  fun e he => hn e (hs.subset he)

theorem unlocked_sublist {fs' fs : FS} (hs : fs'.Sublist fs)
    (hu : unlocked fs) : unlocked fs' :=
  fun e he => hu e (hs.subset he)

theorem lookupE_none_of_sublist {fs' fs : FS} {q : FPath} (hs : fs'.Sublist fs)
    (h : lookupE fs q = none) : lookupE fs' q = none := by
  rw [lookupE_eq_none] at h ⊢
  exact fun e he => h e (hs.subset he)

theorem lookupE_some_of_sublist {fs' fs : FS} {q : FPath} {e : Entry}
    (hw : wfFS fs) (hs : fs'.Sublist fs) (h : lookupE fs' q = some e) :
    lookupE fs q = some e := by
  obtain ⟨hmem, hp⟩ := mem_of_lookupE h
  subst hp
  exact lookupE_of_mem hw (hs.subset hmem)

/-! ### Path-prefix lemmas -/

theorem leadsTo_iff {a b : FPath} : leadsTo a b = true ↔ a <+: b := by
  induction a generalizing b with
  | nil => simp [leadsTo, List.nil_prefix]
  | cons x xs ih =>
    cases b with
    | nil => simp [leadsTo]
    | cons y ys =>
      rw [List.cons_prefix_cons]
      show (x == y && leadsTo xs ys) = true ↔ _
      rw [Bool.and_eq_true, beq_iff_eq, ih]

theorem leadsTo_refl (p : FPath) : leadsTo p p = true :=
  leadsTo_iff.mpr List.prefix_rfl

theorem leadsTo_comparable {a b q : FPath} (ha : leadsTo a q = true)
    (hb : leadsTo b q = true) : leadsTo a b = true ∨ leadsTo b a = true := by
  rcases List.prefix_or_prefix_of_prefix (leadsTo_iff.mp ha)
      (leadsTo_iff.mp hb) with h | h
  · exact Or.inl (leadsTo_iff.mpr h)
  · exact Or.inr (leadsTo_iff.mpr h)

theorem leadsTo_false_of_not {a b : FPath} (h : ¬ a <+: b) :
    leadsTo a b = false := by
  cases hl : leadsTo a b with
  | false => rfl
  | true => exact absurd (leadsTo_iff.mp hl) h

/-! ### Resolution and `isfile`/`isdir` classification -/

theorem resolveNode_forty (fs : FS) (p : FPath) :
    resolveNode fs 40 p =
      match lookupN fs p with
      | some (.symlink t) => resolveNode fs 39 t
      | other => other := rfl

theorem isfileB_of_file {fs : FS} {p : FPath} {c : String}
    (h : lookupN fs p = some (.file c)) : isfileB fs p = true := by
  simp [isfileB, resolveNode_forty, h]

theorem isfileB_of_none {fs : FS} {p : FPath}
    (h : lookupN fs p = none) : isfileB fs p = false := by
  simp [isfileB, resolveNode_forty, h]

theorem isfileB_of_dir {fs : FS} {p : FPath}
    (h : lookupN fs p = some Node.dir) : isfileB fs p = false := by
  simp [isfileB, resolveNode_forty, h]

theorem isdirB_of_file {fs : FS} {p : FPath} {c : String}
    (h : lookupN fs p = some (.file c)) : isdirB fs p = false := by
  simp [isdirB, resolveNode_forty, h]

theorem isdirB_of_dir {fs : FS} {p : FPath}
    (h : lookupN fs p = some Node.dir) : isdirB fs p = true := by
  simp [isdirB, resolveNode_forty, h]

theorem exists_entry_of_isfileB {fs : FS} {p : FPath}
    (h : isfileB fs p = true) :
    ∃ e, lookupE fs p = some e ∧ e.node ≠ Node.dir := by
  cases hL : lookupE fs p with
  | none =>
    rw [isfileB_of_none (by simp [lookupN, hL])] at h
    cases h
  | some e =>
    refine ⟨e, rfl, ?_⟩
    intro hd
    rw [isfileB_of_dir (by simp [lookupN, hL, hd])] at h
    cases h

/-! ### `removePath` extras -/

theorem removePath_of_absent {fs : FS} {p : FPath}
    (h : lookupE fs p = none) : removePath fs p = fs := by
  rw [lookupE_eq_none] at h
  unfold removePath
  rw [List.filter_eq_self]
  intro e he
  simp [h e he]

theorem length_removePath {fs : FS} {p : FPath} {e : Entry} (hw : wfFS fs)
    (h : lookupE fs p = some e) : (removePath fs p).length + 1 = fs.length := by
  induction fs with
  | nil => cases h
  | cons a l ih =>
    simp only [wfFS, List.map_cons, List.nodup_cons] at hw
    by_cases hp : a.path = p
    · have habs : lookupE l p = none := by
        rw [lookupE_eq_none]
        intro x hx hxp
        exact hw.1 (hp ▸ hxp ▸ List.mem_map_of_mem (·.path) hx)
      have : removePath (a :: l) p = removePath l p := by
        simp [removePath, List.filter_cons, hp]
      rw [this, removePath_of_absent habs]
      simp
    · have hsome : lookupE l p = some e := by
        have : ¬(a.path == p) = true := by simpa using hp
        simpa [lookupE, List.find?_cons, hp] using h
      have : removePath (a :: l) p = a :: removePath l p := by
        simp [removePath, List.filter_cons, hp]
      rw [this]
      simp only [List.length_cons]
      have := ih hw.2 hsome
      omega

/-! ### Sweep-loop lemmas -/

theorem and_true_split {a b : Bool} (h : (a && b) = true) :
    a = true ∧ b = true := by
  cases a <;> cases b <;> simp_all

theorem osRemove_ok_eq {fs : FS} {p : FPath} {fs' : FS}
    (h : osRemove fs p = .ok fs') : fs' = removePath fs p := by
  rcases osRemove_spec fs p with ⟨_, h1⟩ | ⟨e, _, _, h1⟩ | ⟨e, _, _, _, h1⟩ |
      ⟨e, _, _, _, h1⟩ <;> rw [h1] at h
  · cases h
  · cases h
  · cases h
  · injection h with he; exact he.symm

theorem osRemove_ok_of_unlocked {fs : FS} {p : FPath} (hu : unlocked fs)
    (hf : isfileB fs p = true) : osRemove fs p = .ok (removePath fs p) := by
  obtain ⟨e, hL, hnd⟩ := exists_entry_of_isfileB hf
  have hl : e.locked = false := hu e (mem_of_lookupE hL).1
  rcases osRemove_spec fs p with ⟨h1, _⟩ | ⟨e', h1, hn', _⟩ |
      ⟨e', h1, _, hl', _⟩ | ⟨e', h1, _, _, h⟩
  · rw [h1] at hL; cases hL
  · rw [h1] at hL; injection hL with he; subst he; exact absurd hn' hnd
  · rw [h1] at hL; injection hL with he; subst he; rw [hl] at hl'; cases hl'
  · exact h

theorem sweepList_no_error :
    ∀ (l : List FPath) (fs : FS) (n : Nat), unlocked fs →
      (sweepList fs l n).2.2 = none := by
  intro l
  induction l with
  | nil => intro fs n _; rfl
  | cons p ps ih =>
    intro fs n hu
    rw [sweepList_cons]
    by_cases hg : (isfileB fs p && matchesExt p) = true
    · simp only [hg, if_true]
      rw [osRemove_ok_of_unlocked hu (and_true_split hg).1]
      exact ih (removePath fs p) (n + 1)
        (unlocked_sublist (removePath_sublist fs p) hu)
    · simp only [hg, if_false]
      exact ih fs n hu

theorem sweepList_lookupE_of_not_matched :
    ∀ (l : List FPath) (fs : FS) (n : Nat) (q : FPath), matchesExt q = false →
      lookupE (sweepList fs l n).1 q = lookupE fs q := by
  intro l
  induction l with
  | nil => intro fs n q _; rfl
  | cons p ps ih =>
    intro fs n q hq
    rw [sweepList_cons]
    by_cases hg : (isfileB fs p && matchesExt p) = true
    · simp only [hg, if_true]
      cases hR : osRemove fs p with
      | error e => rfl
      | ok fs' =>
        have hfs' : fs' = removePath fs p := osRemove_ok_eq hR
        subst hfs'
        have hpq : q ≠ p := by
          intro he; subst he
          rw [(and_true_split hg).2] at hq; cases hq
        show lookupE (sweepList (removePath fs p) ps (n + 1)).1 q = lookupE fs q
        rw [ih (removePath fs p) (n + 1) q hq, lookupE_removePath_ne fs hpq]
    · simp only [hg, if_false]
      exact ih fs n q hq

theorem sweepList_lookupE_of_not_mem :
    ∀ (l : List FPath) (fs : FS) (n : Nat) (q : FPath), q ∉ l →
      lookupE (sweepList fs l n).1 q = lookupE fs q := by
  intro l
  induction l with
  | nil => intro fs n q _; rfl
  | cons p ps ih =>
    intro fs n q hq
    have hqp : q ≠ p := fun he => hq (he ▸ List.mem_cons_self p ps)
    have hqs : q ∉ ps := fun he => hq (List.mem_cons_of_mem p he)
    rw [sweepList_cons]
    by_cases hg : (isfileB fs p && matchesExt p) = true
    · simp only [hg, if_true]
      cases hR : osRemove fs p with
      | error e => rfl
      | ok fs' =>
        have hfs' : fs' = removePath fs p := osRemove_ok_eq hR
        subst hfs'
        show lookupE (sweepList (removePath fs p) ps (n + 1)).1 q = lookupE fs q
        rw [ih (removePath fs p) (n + 1) q hqs, lookupE_removePath_ne fs hqp]
    · simp only [hg, if_false]
      exact ih fs n q hqs

theorem sweepList_skip :
    ∀ (l : List FPath) (fs : FS) (n : Nat), (∀ p ∈ l, matchesExt p = false) →
      sweepList fs l n = (fs, n, none) := by
  intro l
  induction l with
  | nil => intro fs n _; rfl
  | cons p ps ih =>
    intro fs n h
    have hg : ¬(isfileB fs p && matchesExt p) = true := by
      simp [h p (List.mem_cons_self p ps)]
    rw [sweepList_cons]
    simp only [hg, if_false]
    exact ih fs n (fun q hq => h q (List.mem_cons_of_mem p hq))

theorem sweepList_length :
    ∀ (l : List FPath) (fs : FS) (n : Nat), wfFS fs →
      (sweepList fs l n).1.length + (sweepList fs l n).2.1 = fs.length + n := by
  intro l
  induction l with
  | nil => intro fs n _; rfl
  | cons p ps ih =>
    intro fs n hw
    rw [sweepList_cons]
    by_cases hg : (isfileB fs p && matchesExt p) = true
    · simp only [hg, if_true]
      cases hR : osRemove fs p with
      | error e => rfl
      | ok fs' =>
        have hfs' : fs' = removePath fs p := osRemove_ok_eq hR
        subst hfs'
        obtain ⟨e, hL, _⟩ := exists_entry_of_isfileB (and_true_split hg).1
        have hlen := length_removePath hw hL
        have hrec := ih (removePath fs p) (n + 1)
          (wfFS_sublist (removePath_sublist fs p) hw)
        show (sweepList (removePath fs p) ps (n + 1)).1.length +
          (sweepList (removePath fs p) ps (n + 1)).2.1 = fs.length + n
        omega
    · simp only [hg, if_false]
      exact ih fs n hw

theorem sweepList_clean :
    ∀ (l : List FPath) (fs : FS) (n : Nat), unlocked fs →
      (∀ p ∈ l, ∃ c, lookupN fs p = some (Node.file c)) → l.Nodup →
      sweepList fs l n =
        (fs.filter (fun e => !(decide (e.path ∈ l) && matchesExt e.path)),
         n + (l.filter matchesExt).length, none) := by
  intro l
  induction l with
  | nil =>
    intro fs n _ _ _
    have h1 : fs.filter
        (fun e => !(decide (e.path ∈ ([] : List FPath)) && matchesExt e.path)) =
        fs := by
      rw [List.filter_eq_self]
      intro a _
      simp
    rw [h1]
    rfl
  | cons p ps ih =>
    intro fs n hu hf hnd
    obtain ⟨c, hc⟩ := hf p (List.mem_cons_self p ps)
    have hif : isfileB fs p = true := isfileB_of_file hc
    have hnd' := List.nodup_cons.mp hnd
    rw [sweepList_cons]
    by_cases hg : (isfileB fs p && matchesExt p) = true
    · have hm : matchesExt p = true := (and_true_split hg).2
      simp only [hg, if_true]
      rw [osRemove_ok_of_unlocked hu hif]
      show sweepList (removePath fs p) ps (n + 1) = _
      have hrec := ih (removePath fs p) (n + 1)
        (unlocked_sublist (removePath_sublist fs p) hu)
        (fun q hq => by
          obtain ⟨c', hc'⟩ := hf q (List.mem_cons_of_mem p hq)
          refine ⟨c', ?_⟩
          have hqp : q ≠ p := fun he => hnd'.1 (he ▸ hq)
          rw [lookupN, lookupE_removePath_ne fs hqp]
          exact hc')
        hnd'.2
      rw [hrec]
      have h1 : (removePath fs p).filter
          (fun e => !(decide (e.path ∈ ps) && matchesExt e.path)) =
          fs.filter
            (fun e => !(decide (e.path ∈ p :: ps) && matchesExt e.path)) := by
        unfold removePath
        rw [List.filter_filter]
        apply List.filter_congr
        intro e _
        by_cases hep : e.path = p
        · simp [hep, hm]
        · simp [List.mem_cons, hep]
      have h2 : n + 1 + (ps.filter matchesExt).length =
          n + ((p :: ps).filter matchesExt).length := by
        rw [List.filter_cons, if_pos hm]
        simp only [List.length_cons]
        omega
      rw [h1, h2]
    · have hm : matchesExt p = false := by
        cases hmm : matchesExt p
        · rfl
        · exact absurd (by simp [hif, hmm]) hg
      rw [if_neg hg]
      rw [ih fs n hu (fun q hq => hf q (List.mem_cons_of_mem p hq)) hnd'.2]
      have h1 : fs.filter
          (fun e => !(decide (e.path ∈ ps) && matchesExt e.path)) =
          fs.filter
            (fun e => !(decide (e.path ∈ p :: ps) && matchesExt e.path)) := by
        apply List.filter_congr
        intro e _
        by_cases hep : e.path = p
        · simp [hep, hm]
        · simp [List.mem_cons, hep]
      have h2 : (p :: ps).filter matchesExt = ps.filter matchesExt := by
        rw [List.filter_cons, if_neg (by simp [hm])]
      rw [h1, h2]

/-! ### Walk lemmas -/

theorem mem_walkFiles {fs : FS} {top p : FPath} :
    p ∈ walkFiles fs top ↔
      ∃ e ∈ fs, e.path = p ∧ walkQual fs top p = true := by
  unfold walkFiles
  rw [List.mem_map]
  constructor
  · rintro ⟨e, hmem, rfl⟩
    have h := List.mem_filter.mp hmem
    exact ⟨e, h.1, rfl, h.2⟩
  · rintro ⟨e, hmem, rfl, hq⟩
    exact ⟨e, List.mem_filter.mpr ⟨hmem, hq⟩, rfl⟩

theorem walkFiles_nodup {fs : FS} (top : FPath) (hw : wfFS fs) :
    (walkFiles fs top).Nodup := by
  unfold walkFiles
  refine List.Nodup.sublist ?_ hw
  exact List.Sublist.map (·.path) (List.filter_sublist fs)

theorem strictUnder_of_walkQual {fs : FS} {top p : FPath}
    (h : walkQual fs top p = true) : strictUnder top p = true := by
  unfold walkQual at h
  exact (and_true_split (and_true_split h).1).1

theorem not_isdirB_of_walkQual {fs : FS} {top p : FPath}
    (h : walkQual fs top p = true) : isdirB fs p = false := by
  unfold walkQual at h
  have := (and_true_split h).2
  simpa using this

theorem walkQual_ancestors {fs : FS} {top p : FPath}
    (h : walkQual fs top p = true) :
    ∀ q ∈ properPrefixes p, leadsTo top q = true →
      lookupN fs q = some Node.dir := by
  unfold walkQual at h
  have hall := (and_true_split (and_true_split h).1).2
  rw [List.all_eq_true] at hall
  intro q hq hlt
  have := hall q hq
  rw [hlt] at this
  simpa using this

theorem file_of_mem_walkFiles {fs : FS} {top p : FPath} (hw : wfFS fs)
    (hns : noSymlinks fs) (h : p ∈ walkFiles fs top) :
    ∃ c, lookupN fs p = some (Node.file c) := by
  obtain ⟨e, hmem, rfl, hq⟩ := mem_walkFiles.mp h
  have hln := lookupN_of_mem hw hmem
  cases hn : e.node with
  | file c => exact ⟨c, by rw [hln, hn]⟩
  | dir =>
    have hd := not_isdirB_of_walkQual hq
    rw [isdirB_of_dir (by rw [hln, hn])] at hd
    cases hd
  | symlink t =>
    have hsl := hns e hmem
    rw [hn] at hsl
    simp [isSymlinkNode] at hsl

/-! ### `rmtree` and directory-phase lemmas -/

theorem subtreeHasLocked_of_unlocked {fs : FS} (hu : unlocked fs)
    (q : FPath) : subtreeHasLocked fs q = false := by
  unfold subtreeHasLocked
  rw [List.any_eq_false]
  intro e he
  simp [hu e he]

theorem rmtreeIgnore_of_not_dir {fs : FS} {p : FPath}
    (h : lookupN fs p ≠ some Node.dir) : rmtreeIgnore fs p = fs := by
  unfold rmtreeIgnore
  cases hL : lookupN fs p with
  | none => rfl
  | some n =>
    cases n with
    | dir => exact absurd hL h
    | file c => rfl
    | symlink t => rfl

theorem rmtreeIgnore_lookupE_not_under {fs : FS} {p q : FPath}
    (h : leadsTo p q = false) :
    lookupE (rmtreeIgnore fs p) q = lookupE fs q := by
  unfold rmtreeIgnore
  cases hL : lookupN fs p with
  | none => rfl
  | some n =>
    cases n with
    | dir =>
      apply lookupE_filter_of_keep
      intro e _ hep
      simp [hep, h]
    | file c => rfl
    | symlink t => rfl

theorem rmtreeIgnore_lookupE_none {fs : FS} {p q : FPath} (hu : unlocked fs)
    (hd : lookupN fs p = some Node.dir) (h : leadsTo p q = true) :
    lookupE (rmtreeIgnore fs p) q = none := by
  unfold rmtreeIgnore
  rw [hd]
  apply lookupE_filter_none
  intro e he hep
  simp [hep, h, subtreeHasLocked_of_unlocked hu]

theorem foldl_rmtree_sublist :
    ∀ (ts : List FPath) (g : FS),
      (ts.foldl (fun f t => rmtreeIgnore f t) g).Sublist g := by
  intro ts
  induction ts with
  | nil => intro g; exact List.Sublist.refl g
  | cons t rest ih =>
    intro g
    rw [List.foldl_cons]
    exact (ih (rmtreeIgnore g t)).trans (rmtreeIgnore_sublist g t)

theorem foldl_rmtree_lookupE_not_under :
    ∀ (ts : List FPath) (fs : FS) (q : FPath),
      (∀ t ∈ ts, leadsTo t q = false) →
      lookupE (ts.foldl (fun f t => rmtreeIgnore f t) fs) q = lookupE fs q := by
  intro ts
  induction ts with
  | nil => intro fs q _; rfl
  | cons t rest ih =>
    intro fs q h
    rw [List.foldl_cons,
      ih (rmtreeIgnore fs t) q (fun t' ht' => h t' (List.mem_cons_of_mem t ht')),
      rmtreeIgnore_lookupE_not_under (h t (List.mem_cons_self t rest))]

theorem foldl_rmtree_none :
    ∀ (ts : List FPath) (fs : FS) (t q : FPath), t ∈ ts → wfFS fs →
      unlocked fs → lookupN fs t = some Node.dir → leadsTo t q = true →
      (∀ t' ∈ ts, t' = t ∨ (leadsTo t' t = false ∧ leadsTo t t' = false)) →
      lookupE (ts.foldl (fun f t => rmtreeIgnore f t) fs) q = none := by
  intro ts
  induction ts with
  | nil => intro fs t q ht; cases ht
  | cons t0 rest ih =>
    intro fs t q ht hw hu hd hlq hinc
    rw [List.foldl_cons]
    by_cases h0 : t0 = t
    · subst h0
      exact lookupE_none_of_sublist (foldl_rmtree_sublist rest _)
        (rmtreeIgnore_lookupE_none hu hd hlq)
    · have ht' : t ∈ rest := by
        rcases List.mem_cons.mp ht with h | h
        · exact absurd h.symm h0
        · exact h
      rcases hinc t0 (List.mem_cons_self t0 rest) with h | hpair
      · exact absurd h h0
      · have hpres : ∀ r, leadsTo t r = true →
            lookupE (rmtreeIgnore fs t0) r = lookupE fs r := by
          intro r hr
          apply rmtreeIgnore_lookupE_not_under
          cases h0r : leadsTo t0 r with
          | false => rfl
          | true =>
            rcases leadsTo_comparable h0r hr with hc | hc
            · rw [hpair.1] at hc; cases hc
            · rw [hpair.2] at hc; cases hc
        apply ih (rmtreeIgnore fs t0) t q ht'
          (wfFS_sublist (rmtreeIgnore_sublist fs t0) hw)
          (unlocked_sublist (rmtreeIgnore_sublist fs t0) hu)
          ?_ hlq (fun t' ht'' => hinc t' (List.mem_cons_of_mem t0 ht''))
        show (lookupE (rmtreeIgnore fs t0) t).map (·.node) = some Node.dir
        rw [hpres t (leadsTo_refl t)]
        exact hd

/-! ### File-phase lemmas -/

theorem tryRemove_ok_absent {fs : FS} {t : String}
    (h : lookupE fs [t] = none) : tryRemove fs t = (fs, none) := by
  rcases tryRemove_spec fs t with ⟨_, h1⟩ | ⟨e, he, _, h1⟩ |
      ⟨e, he, _, _, h1⟩ | ⟨e, he, _, _, h1⟩
  · exact h1
  · rw [h] at he; cases he
  · rw [h] at he; cases he
  · rw [h] at he; cases he

theorem removeListedFiles_of_all_absent :
    ∀ (ts : List String) (fs : FS), (∀ t ∈ ts, lookupE fs [t] = none) →
      removeListedFiles fs ts = (fs, none) := by
  intro ts
  induction ts with
  | nil => intro fs _; rfl
  | cons t rest ih =>
    intro fs h
    rw [removeListedFiles_cons,
      tryRemove_ok_absent (h t (List.mem_cons_self t rest))]
    exact ih fs (fun t' ht' => h t' (List.mem_cons_of_mem t ht'))

theorem removeListedFiles_ok_absent :
    ∀ (ts : List String) (fs fsA : FS),
      removeListedFiles fs ts = (fsA, none) →
      ∀ t ∈ ts, lookupE fsA [t] = none := by
  intro ts
  induction ts with
  | nil => intro fs fsA h t ht; cases ht
  | cons t0 rest ih =>
    intro fs fsA h t ht
    rw [removeListedFiles_cons] at h
    rcases tryRemove_spec fs t0 with ⟨habs, h1⟩ | ⟨e, _, _, h1⟩ |
        ⟨e, _, _, _, h1⟩ | ⟨e, _, _, _, h1⟩ <;> rw [h1] at h
    · replace h : removeListedFiles fs rest = (fsA, none) := h
      rcases List.mem_cons.mp ht with rfl | hmem
      · have hsub : fsA.Sublist fs := by
          have := removeListedFiles_sublist rest fs
          rw [h] at this; exact this
        exact lookupE_none_of_sublist hsub habs
      · exact ih fs fsA h t hmem
    · have h2 := congrArg Prod.snd h
      simp at h2
    · have h2 := congrArg Prod.snd h
      simp at h2
    · replace h : removeListedFiles (removePath fs [t0]) rest = (fsA, none) := h
      rcases List.mem_cons.mp ht with rfl | hmem
      · have hsub : fsA.Sublist (removePath fs [t]) := by
          have := removeListedFiles_sublist rest (removePath fs [t])
          rw [h] at this; exact this
        exact lookupE_none_of_sublist hsub (lookupE_removePath_self fs [t])
      · exact ih (removePath fs [t0]) fsA h t hmem

theorem removeListedFiles_untouched :
    ∀ (ts : List String) (fs : FS) (q : FPath), (∀ t ∈ ts, q ≠ [t]) →
      lookupE ((removeListedFiles fs ts).1) q = lookupE fs q := by
  intro ts
  induction ts with
  | nil => intro fs q _; rfl
  | cons t0 rest ih =>
    intro fs q h
    have hne : q ≠ [t0] := h t0 (List.mem_cons_self t0 rest)
    have hrest : ∀ t ∈ rest, q ≠ [t] :=
      fun t ht => h t (List.mem_cons_of_mem t0 ht)
    rcases tryRemove_spec fs t0 with ⟨_, h1⟩ | ⟨e, _, _, h1⟩ |
        ⟨e, _, _, _, h1⟩ | ⟨e, _, _, _, h1⟩
    · rw [removeListedFiles_cons, h1]
      exact ih fs q hrest
    · rw [removeListedFiles_cons, h1]
    · rw [removeListedFiles_cons, h1]
    · rw [removeListedFiles_cons, h1]
      show lookupE ((removeListedFiles (removePath fs [t0]) rest)).1 q =
        lookupE fs q
      rw [ih (removePath fs [t0]) q hrest, lookupE_removePath_ne fs hne]

theorem removeListedFiles_ok_of_safe :
    ∀ (ts : List String) (fs : FS),
      (∀ t ∈ ts, lookupN fs [t] ≠ some Node.dir ∧ lockedAt fs [t] = false) →
      (removeListedFiles fs ts).2 = none := by
  intro ts
  induction ts with
  | nil => intro fs _; rfl
  | cons t0 rest ih =>
    intro fs h
    have h0 := h t0 (List.mem_cons_self t0 rest)
    rcases tryRemove_spec fs t0 with ⟨_, h1⟩ | ⟨e, he, hnd, h1⟩ |
        ⟨e, he, _, hl, h1⟩ | ⟨e, he, _, _, h1⟩ <;>
      rw [removeListedFiles_cons, h1]
    · exact ih fs (fun t ht => h t (List.mem_cons_of_mem t0 ht))
    · exact absurd (by simp [lookupN, he, hnd]) h0.1
    · have : lockedAt fs [t0] = true := by
        unfold lockedAt; rw [he]; exact hl
      rw [this] at h0
      cases h0.2
    · apply ih (removePath fs [t0])
      intro t ht
      by_cases hte : [t] = ([t0] : FPath)
      · constructor
        · rw [lookupN, hte, lookupE_removePath_self fs [t0]]
          simp
        · unfold lockedAt
          rw [hte, lookupE_removePath_self fs [t0]]
      · have h2 := h t (List.mem_cons_of_mem t0 ht)
        constructor
        · rw [lookupN, lookupE_removePath_ne fs hte]
          exact h2.1
        · unfold lockedAt
          rw [lookupE_removePath_ne fs hte]
          have := h2.2
          unfold lockedAt at this
          exact this

theorem removeListedFiles_err_of_dir :
    ∀ (ts : List String) (fs : FS) (t : String), t ∈ ts →
      lookupN fs [t] = some Node.dir →
      ∃ er, (removeListedFiles fs ts).2 = some er := by
  intro ts
  induction ts with
  | nil => intro fs t ht; cases ht
  | cons t0 rest ih =>
    intro fs t ht hd
    rcases tryRemove_spec fs t0 with ⟨habs, h1⟩ | ⟨e, _, _, h1⟩ |
        ⟨e, _, _, _, h1⟩ | ⟨e, he, hnd, _, h1⟩ <;>
      rw [removeListedFiles_cons, h1]
    · rcases List.mem_cons.mp ht with rfl | hmem
      · rw [lookupN, habs] at hd; cases hd
      · exact ih fs t hmem hd
    · exact ⟨_, rfl⟩
    · exact ⟨_, rfl⟩
    · by_cases htt : t = t0
      · subst htt
        rw [lookupN, he] at hd
        injection hd with hd'
        exact absurd hd' hnd
      · have hmem : t ∈ rest := by
          rcases List.mem_cons.mp ht with h | h
          · exact absurd h htt
          · exact h
        apply ih (removePath fs [t0]) t hmem
        rw [lookupN, lookupE_removePath_ne fs (by simp [htt])]
        exact hd

/-! ### Walk characterization under a well-formed symlink-free tree -/

theorem entry_unique {fs : FS} (hw : wfFS fs) {e e' : Entry} (he : e ∈ fs)
    (he' : e' ∈ fs) (hp : e.path = e'.path) : e = e' := by
  have l1 := lookupE_of_mem hw he
  have l2 := lookupE_of_mem hw he'
  rw [hp] at l1
  rw [l1] at l2
  exact Option.some.inj l2

theorem path_mem_map_filter {fs : FS} (hw : wfFS fs) {e : Entry}
    (he : e ∈ fs) (pred : Entry → Bool) :
    decide (e.path ∈ (fs.filter pred).map (·.path)) = pred e := by
  by_cases hp : pred e = true
  · rw [hp]
    exact decide_eq_true (List.mem_map_of_mem _ (List.mem_filter.mpr ⟨he, hp⟩))
  · simp only [Bool.not_eq_true] at hp
    rw [hp]
    apply decide_eq_false
    intro hmem
    rw [List.mem_map] at hmem
    obtain ⟨e', he', hpe⟩ := hmem
    have hf := List.mem_filter.mp he'
    have : e' = e := entry_unique hw hf.1 he hpe
    subst this
    rw [hp] at hf
    exact absurd hf.2 (by simp)

theorem leadsTo_cons_ne_nil {x : String} {xs q : FPath}
    (h : leadsTo (x :: xs) q = true) : q ≠ [] := by
  intro he
  subst he
  cases h

theorem walkFiles_char (fs : FS) (hw : wfFS fs) (hns : noSymlinks fs)
    (hg : goodTree fs) (top : FPath) (hne : top ≠ []) :
    walkFiles fs top =
      (fs.filter (fun e => strictUnder top e.path && isRegularFile e.node)).map
        (·.path) := by
  obtain ⟨x, xs, rfl⟩ : ∃ y ys, top = y :: ys := by
    cases top with
    | nil => exact absurd rfl hne
    | cons y ys => exact ⟨y, ys, rfl⟩
  unfold walkFiles
  congr 1
  apply List.filter_congr
  intro e he
  unfold walkQual
  by_cases hs : strictUnder (x :: xs) e.path = true
  · have hall : (properPrefixes e.path).all
        (fun q => !(leadsTo (x :: xs) q) || (lookupN fs q == some Node.dir)) =
        true := by
      rw [List.all_eq_true]
      intro q hq
      by_cases hl : leadsTo (x :: xs) q = true
      · have hdir := hg e he q hq (leadsTo_cons_ne_nil hl)
        rw [hl, hdir]
        simp
      · have hlf : leadsTo (x :: xs) q = false := by simpa using hl
        rw [hlf]
        simp
    cases hn : e.node with
    | file c =>
      have hd : isdirB fs e.path = false :=
        isdirB_of_file (by rw [lookupN_of_mem hw he, hn])
      rw [hs, hall, hd]
      rfl
    | dir =>
      have hd : isdirB fs e.path = true :=
        isdirB_of_dir (by rw [lookupN_of_mem hw he, hn])
      rw [hs, hall, hd]
      rfl
      | symlink t =>
      have hsl := hns e he
      rw [hn] at hsl
      simp [isSymlinkNode] at hsl
  · have hsf : strictUnder (x :: xs) e.path = false := by simpa using hs
    rw [hsf]
    rfl

theorem strictUnder_nt_ex_false {p : FPath}
    (h : strictUnder ntRoot p = true) : strictUnder exRoot p = false := by
  cases p with
  | nil =>
    have h2 := (and_true_split h).1
    cases h2
  | cons a as =>
    have h2 : leadsTo ntRoot (a :: as) = true := (and_true_split h).1
    have h1 : ("nautilus_trader" == a) = true := (and_true_split h2).1
    have ha : a = "nautilus_trader" := by
      have := h1
      simp at this
      exact this.symm
    subst ha
    rfl

theorem length_filter_add {α : Type} {l : List α} {a b : α → Bool}
    (h : ∀ x ∈ l, ¬(a x = true ∧ b x = true)) :
    (l.filter a).length + (l.filter b).length =
      (l.filter (fun x => a x || b x)).length := by
  induction l with
  | nil => rfl
  | cons x xs ih =>
    have hrest : ∀ y ∈ xs, ¬(a y = true ∧ b y = true) :=
      fun y hy => h y (List.mem_cons_of_mem x hy)
    have hih := ih hrest
    rw [List.filter_cons, List.filter_cons, List.filter_cons]
    cases ha : a x with
    | true =>
      have hbf : b x = false := by
        cases hb : b x
        · rfl
        · exact absurd ⟨ha, hb⟩ (h x (List.mem_cons_self x xs))
      simp [hbf]
      omega
    | false =>
      cases hb : b x with
      | true =>
        simp
        omega
      | false =>
        simp
        omega

/-! ### The sweep's normal form on a well-formed, symlink-free,
unlocked tree -/

theorem goodTree_filter_keep (fs : FS) (hw : wfFS fs) (hg : goodTree fs)
    (keep : Entry → Bool) (hk : ∀ x ∈ fs, x.node = Node.dir → keep x = true) :
    goodTree (fs.filter keep) := by
  intro e he q hq hqne
  have he' : e ∈ fs := (List.filter_sublist fs).subset he
  have hdir := hg e he' q hq hqne
  obtain ⟨x', hx'⟩ : ∃ x', lookupE fs q = some x' := by
    cases hL : lookupE fs q with
    | none => simp [lookupN, hL] at hdir
    | some y => exact ⟨y, rfl⟩
  have hxnode : x'.node = Node.dir := by
    unfold lookupN at hdir
    rw [hx'] at hdir
    simpa using hdir
  have hkq : ∀ x ∈ fs, x.path = q → keep x = true := by
    intro x hx hxq
    have hxe : x = x' := by
      have h1 := lookupE_of_mem hw hx
      rw [hxq] at h1
      rw [h1] at hx'
      exact Option.some.inj hx'
    subst hxe
    exact hk x hx hxnode
  show (lookupE (fs.filter keep) q).map (·.node) = some Node.dir
  rw [lookupE_filter_of_keep hkq]
  exact hdir

theorem sweepTrees_clean (fs : FS) (hw : wfFS fs) (hns : noSymlinks fs)
    (hu : unlocked fs) (hg : goodTree fs) :
    sweepTrees fs =
      (fs.filter (fun e => !(specSweepTarget e)),
       (fs.filter specSweepTarget).length, none) := by
  have hl1 : walkFiles fs ntRoot =
      (fs.filter (fun e => strictUnder ntRoot e.path && isRegularFile e.node)).map
        (·.path) :=
    walkFiles_char fs hw hns hg ntRoot (by simp [ntRoot])
  have hclean1 := sweepList_clean (walkFiles fs ntRoot) fs 0 hu
    (fun p hp => file_of_mem_walkFiles hw hns hp) (walkFiles_nodup ntRoot hw)
  have hK1 : fs.filter
      (fun e => !(decide (e.path ∈ walkFiles fs ntRoot) && matchesExt e.path)) =
      (fs.filter (fun e =>
      !((strictUnder ntRoot e.path && isRegularFile e.node) &&
        matchesExt e.path))) := by
    apply List.filter_congr
    intro e he
    rw [hl1, path_mem_map_filter hw he
      (fun e => strictUnder ntRoot e.path && isRegularFile e.node)]
  rw [hK1] at hclean1
  have hsub1 : ((fs.filter (fun e =>
      !((strictUnder ntRoot e.path && isRegularFile e.node) &&
        matchesExt e.path)))).Sublist fs := List.filter_sublist fs
  have hw1 : wfFS (fs.filter (fun e =>
      !((strictUnder ntRoot e.path && isRegularFile e.node) &&
        matchesExt e.path))) := wfFS_sublist hsub1 hw
  have hns1 : noSymlinks (fs.filter (fun e =>
      !((strictUnder ntRoot e.path && isRegularFile e.node) &&
        matchesExt e.path))) := noSymlinks_sublist hsub1 hns
  have hu1 : unlocked (fs.filter (fun e =>
      !((strictUnder ntRoot e.path && isRegularFile e.node) &&
        matchesExt e.path))) := unlocked_sublist hsub1 hu
  have hg1 : goodTree (fs.filter (fun e =>
      !((strictUnder ntRoot e.path && isRegularFile e.node) &&
        matchesExt e.path))) := by
    apply goodTree_filter_keep fs hw hg
    intro x _ hxd
    rw [hxd]
    simp [isRegularFile]
  have hl2 : walkFiles (fs.filter (fun e =>
      !((strictUnder ntRoot e.path && isRegularFile e.node) &&
        matchesExt e.path))) exRoot =
      (((fs.filter (fun e =>
      !((strictUnder ntRoot e.path && isRegularFile e.node) &&
        matchesExt e.path)))).filter
        (fun e => strictUnder exRoot e.path && isRegularFile e.node)).map
        (·.path) :=
    walkFiles_char _ hw1 hns1 hg1 exRoot (by simp [exRoot])
  have hclean2 := sweepList_clean (walkFiles (fs.filter (fun e =>
      !((strictUnder ntRoot e.path && isRegularFile e.node) &&
        matchesExt e.path))) exRoot) (fs.filter (fun e =>
      !((strictUnder ntRoot e.path && isRegularFile e.node) &&
        matchesExt e.path)))
    (0 + ((walkFiles fs ntRoot).filter matchesExt).length) hu1
    (fun p hp => file_of_mem_walkFiles hw1 hns1 hp) (walkFiles_nodup exRoot hw1)
  have hK2 : ((fs.filter (fun e =>
      !((strictUnder ntRoot e.path && isRegularFile e.node) &&
        matchesExt e.path)))).filter
      (fun e => !(decide (e.path ∈ walkFiles (fs.filter (fun e =>
      !((strictUnder ntRoot e.path && isRegularFile e.node) &&
        matchesExt e.path))) exRoot) &&
        matchesExt e.path)) =
      ((fs.filter (fun e =>
      !((strictUnder ntRoot e.path && isRegularFile e.node) &&
        matchesExt e.path)))).filter
        (fun e => !((strictUnder exRoot e.path && isRegularFile e.node) &&
          matchesExt e.path)) := by
    apply List.filter_congr
    intro e he
    rw [hl2, path_mem_map_filter hw1 he
      (fun e => strictUnder exRoot e.path && isRegularFile e.node)]
  rw [hK2] at hclean2
  rw [sweepTrees_eq, hclean1]
  show sweepList (fs.filter (fun e =>
      !((strictUnder ntRoot e.path && isRegularFile e.node) &&
        matchesExt e.path))) (walkFiles (fs.filter (fun e =>
      !((strictUnder ntRoot e.path && isRegularFile e.node) &&
        matchesExt e.path))) exRoot)
      (0 + ((walkFiles fs ntRoot).filter matchesExt).length) = _
  rw [hclean2]
  have hfs2 : ((fs.filter (fun e =>
      !((strictUnder ntRoot e.path && isRegularFile e.node) &&
        matchesExt e.path)))).filter
      (fun e => !((strictUnder exRoot e.path && isRegularFile e.node) &&
        matchesExt e.path)) =
      fs.filter (fun e => !(specSweepTarget e)) := by
    rw [List.filter_filter]
    apply List.filter_congr
    intro e he
    unfold specSweepTarget
    cases h1 : strictUnder ntRoot e.path <;>
      cases h2 : strictUnder exRoot e.path <;>
      cases h3 : isRegularFile e.node <;>
      cases h4 : matchesExt e.path <;> rfl
  have hlen1 : ((walkFiles fs ntRoot).filter matchesExt).length =
      (fs.filter (fun e =>
        (strictUnder ntRoot e.path && isRegularFile e.node) &&
          matchesExt e.path)).length := by
    rw [hl1, List.filter_map, List.length_map, List.filter_filter]
    congr 1
    apply List.filter_congr
    intro e _
    cases hx : matchesExt e.path <;>
      cases hy : (strictUnder ntRoot e.path && isRegularFile e.node) <;>
      simp [Function.comp, hx, hy]
  have hlen2 : ((walkFiles (fs.filter (fun e =>
      !((strictUnder ntRoot e.path && isRegularFile e.node) &&
        matchesExt e.path))) exRoot).filter matchesExt).length =
      (fs.filter (fun e =>
        (strictUnder exRoot e.path && isRegularFile e.node) &&
          matchesExt e.path)).length := by
    rw [hl2, List.filter_map, List.length_map, List.filter_filter,
      List.filter_filter]
    congr 1
    apply List.filter_congr
    intro e _
    by_cases h2 : strictUnder exRoot e.path = true
    · have h1 : strictUnder ntRoot e.path = false := by
        cases hh : strictUnder ntRoot e.path
        · rfl
        · rw [strictUnder_nt_ex_false hh] at h2
          cases h2
      cases hx : matchesExt e.path <;>
        cases hy : isRegularFile e.node <;>
        simp [Function.comp, hx, hy, h1, h2]
    · have h2f : strictUnder exRoot e.path = false := by simpa using h2
      cases hx : matchesExt e.path <;>
        cases hy : isRegularFile e.node <;>
        simp [Function.comp, hx, hy, h2f]
  have hdisj : ∀ x ∈ fs,
      ¬(((strictUnder ntRoot x.path && isRegularFile x.node) &&
          matchesExt x.path) = true ∧
        ((strictUnder exRoot x.path && isRegularFile x.node) &&
          matchesExt x.path) = true) := by
    rintro x _ ⟨hA, hB⟩
    have h1 := (and_true_split (and_true_split hA).1).1
    have h2 := (and_true_split (and_true_split hB).1).1
    rw [strictUnder_nt_ex_false h1] at h2
    cases h2
  have hor : fs.filter (fun x =>
      ((strictUnder ntRoot x.path && isRegularFile x.node) &&
        matchesExt x.path) ||
      ((strictUnder exRoot x.path && isRegularFile x.node) &&
        matchesExt x.path)) = fs.filter specSweepTarget := by
    apply List.filter_congr
    intro e _
    unfold specSweepTarget
    cases h1 : strictUnder ntRoot e.path <;>
      cases h2 : strictUnder exRoot e.path <;>
      cases h3 : isRegularFile e.node <;>
      cases h4 : matchesExt e.path <;> rfl
  have hcnt : 0 + ((walkFiles fs ntRoot).filter matchesExt).length +
      ((walkFiles (fs.filter (fun e =>
      !((strictUnder ntRoot e.path && isRegularFile e.node) &&
        matchesExt e.path))) exRoot).filter matchesExt).length =
      (fs.filter specSweepTarget).length := by
    rw [hlen1, hlen2, Nat.zero_add, length_filter_add hdisj, hor]
  rw [hfs2, hcnt]

/-! ### Symlink resolution helpers -/

theorem resolveNode_thirtynine (fs : FS) (p : FPath) :
    resolveNode fs 39 p =
      match lookupN fs p with
      | some (.symlink t) => resolveNode fs 38 t
      | other => other := rfl

theorem isfileB_of_symlink_file {fs : FS} {p tpath : FPath} {tE : Entry}
    (hsym : lookupN fs p = some (Node.symlink tpath))
    (htgt : lookupE fs tpath = some tE) (htf : isRegularFile tE.node = true) :
    isfileB fs p = true := by
  obtain ⟨c, hcn⟩ : ∃ c, tE.node = Node.file c := by
    cases hn : tE.node with
    | file c => exact ⟨c, rfl⟩
    | dir => rw [hn] at htf; cases htf
    | symlink t => rw [hn] at htf; cases htf
  have htn : lookupN fs tpath = some (Node.file c) := by
    simp [lookupN, htgt, hcn]
  unfold isfileB
  rw [resolveNode_forty, hsym]
  show (match resolveNode fs 39 tpath with
    | some (.file _) => true
    | _ => false) = true
  rw [resolveNode_thirtynine, htn]

theorem isdirB_of_symlink_file {fs : FS} {p tpath : FPath} {tE : Entry}
    (hsym : lookupN fs p = some (Node.symlink tpath))
    (htgt : lookupE fs tpath = some tE) (htf : isRegularFile tE.node = true) :
    isdirB fs p = false := by
  obtain ⟨c, hcn⟩ : ∃ c, tE.node = Node.file c := by
    cases hn : tE.node with
    | file c => exact ⟨c, rfl⟩
    | dir => rw [hn] at htf; cases htf
    | symlink t => rw [hn] at htf; cases htf
  have htn : lookupN fs tpath = some (Node.file c) := by
    simp [lookupN, htgt, hcn]
  unfold isdirB
  rw [resolveNode_forty, hsym]
  show ((resolveNode fs 39 tpath) == some Node.dir) = false
  rw [resolveNode_thirtynine, htn]
  rfl

/-! ### Further fold and walk helpers -/

theorem foldl_rmtree_id :
    ∀ (ts : List FPath) (fs : FS),
      (∀ t ∈ ts, lookupN fs t ≠ some Node.dir) →
      ts.foldl (fun f t => rmtreeIgnore f t) fs = fs := by
  intro ts
  induction ts with
  | nil => intro fs _; rfl
  | cons t rest ih =>
    intro fs h
    rw [List.foldl_cons,
      rmtreeIgnore_of_not_dir (h t (List.mem_cons_self t rest))]
    exact ih fs (fun t' ht' => h t' (List.mem_cons_of_mem t ht'))

theorem mem_walkFiles_of_sublist {fs' fs : FS} {top p : FPath}
    (hsub : fs'.Sublist fs) (hw : wfFS fs) (hns : noSymlinks fs)
    (h : p ∈ walkFiles fs' top) : p ∈ walkFiles fs top := by
  obtain ⟨e, he, rfl, hq⟩ := mem_walkFiles.mp h
  have hef : e ∈ fs := hsub.subset he
  have hw' : wfFS fs' := wfFS_sublist hsub hw
  refine mem_walkFiles.mpr ⟨e, hef, rfl, ?_⟩
  unfold walkQual at hq ⊢
  obtain ⟨hq12, hq3⟩ := and_true_split hq
  obtain ⟨hq1, hq2⟩ := and_true_split hq12
  obtain ⟨c, hc⟩ : ∃ c, e.node = Node.file c := by
    cases hn : e.node with
    | file c => exact ⟨c, rfl⟩
    | dir =>
      have hdd : isdirB fs' e.path = true :=
        isdirB_of_dir (by rw [lookupN_of_mem hw' he, hn])
      rw [hdd] at hq3
      cases hq3
    | symlink t =>
      have hsl := hns e hef
      rw [hn] at hsl
      simp [isSymlinkNode] at hsl
  have h3 : isdirB fs e.path = false :=
    isdirB_of_file (by rw [lookupN_of_mem hw hef, hc])
  have h2 : (properPrefixes e.path).all
      (fun q => !(leadsTo top q) || (lookupN fs q == some Node.dir)) = true := by
    rw [List.all_eq_true] at hq2 ⊢
    intro q hqq
    have hthis := hq2 q hqq
    by_cases hl : leadsTo top q = true
    · rw [hl] at hthis ⊢
      have hdq : lookupN fs' q = some Node.dir := by
        simpa using hthis
      obtain ⟨x, hx⟩ : ∃ x, lookupE fs' q = some x := by
        cases hL : lookupE fs' q with
        | none => simp [lookupN, hL] at hdq
        | some y => exact ⟨y, rfl⟩
      have hxd : x.node = Node.dir := by
        unfold lookupN at hdq
        rw [hx] at hdq
        simpa using hdq
      have hfx := lookupE_some_of_sublist hw hsub hx
      have : lookupN fs q = some Node.dir := by
        unfold lookupN
        rw [hfx]
        simp [hxd]
      simp [this]
    · have hlf : leadsTo top q = false := by simpa using hl
      rw [hlf]
      simp
  rw [hq1, h2, h3]
  rfl

theorem sweepList_removes_symlink :
    ∀ (l : List FPath) (fs : FS) (n : Nat) (sL tpath : FPath) (tE : Entry),
      unlocked fs →
      lookupN fs sL = some (Node.symlink tpath) →
      lookupE fs tpath = some tE → isRegularFile tE.node = true →
      matchesExt sL = true → sL ∈ l → (∀ q ∈ l, q ≠ tpath) →
      ∃ fs' n', sweepList fs l n = (fs', n', none) ∧
        lookupE fs' sL = none ∧ lookupE fs' tpath = some tE := by
  intro l
  induction l with
  | nil => intro fs n sL tpath tE _ _ _ _ _ hmem _; cases hmem
  | cons p ps ih =>
    intro fs n sL tpath tE hu hsym htgt htf hm hmem hnt
    by_cases hps : p = sL
    · subst hps
      have hif : isfileB fs p = true := isfileB_of_symlink_file hsym htgt htf
      have hg : (isfileB fs p && matchesExt p) = true := by simp [hif, hm]
      rw [sweepList_cons, if_pos hg, osRemove_ok_of_unlocked hu hif]
      have htp : tpath ≠ p := by
        intro he
        subst he
        have h1 : lookupN fs tpath = some tE.node := by simp [lookupN, htgt]
        rw [hsym] at h1
        have h2 := Option.some.inj h1
        rw [← h2] at htf
        cases htf
      have h1 : lookupE (removePath fs p) p = none := lookupE_removePath_self fs p
      have h2 : lookupE (removePath fs p) tpath = some tE := by
        rw [lookupE_removePath_ne fs htp]
        exact htgt
      have hu' := unlocked_sublist (removePath_sublist fs p) hu
      rcases hres : sweepList (removePath fs p) ps (n + 1) with ⟨fa, na, ea⟩
      have hea : ea = none := by
        have := sweepList_no_error ps (removePath fs p) (n + 1) hu'
        rw [hres] at this
        exact this
      subst hea
      have hsuba : fa.Sublist (removePath fs p) := by
        have := sweepList_sublist ps (removePath fs p) (n + 1)
        rw [hres] at this
        exact this
      refine ⟨fa, na, hres, lookupE_none_of_sublist hsuba h1, ?_⟩
      have htnm : tpath ∉ ps := fun hmem' => hnt tpath (List.mem_cons_of_mem p hmem') rfl
      have hpre := sweepList_lookupE_of_not_mem ps (removePath fs p) (n + 1) tpath htnm
      rw [hres] at hpre
      rw [h2] at hpre
      exact hpre
    · have hmem' : sL ∈ ps := by
        rcases List.mem_cons.mp hmem with h | h
        · exact absurd h.symm hps
        · exact h
      rw [sweepList_cons]
      by_cases hgg : (isfileB fs p && matchesExt p) = true
      · rw [if_pos hgg, osRemove_ok_of_unlocked hu (and_true_split hgg).1]
        have hslp : sL ≠ p := fun he => hps he.symm
        have htpp : tpath ≠ p :=
          fun he => (hnt p (List.mem_cons_self p ps)) he.symm
        apply ih (removePath fs p) (n + 1) sL tpath tE
          (unlocked_sublist (removePath_sublist fs p) hu)
          (by
            show (lookupE (removePath fs p) sL).map (·.node) = _
            rw [lookupE_removePath_ne fs hslp]
            exact hsym)
          (by
            rw [lookupE_removePath_ne fs htpp]
            exact htgt)
          htf hm hmem' (fun q hq => hnt q (List.mem_cons_of_mem p hq))
      · rw [if_neg hgg]
        exact ih fs n sL tpath tE hu hsym htgt htf hm hmem'
          (fun q hq => hnt q (List.mem_cons_of_mem p hq))

/-! ### Sweep-level bridges -/

theorem osRemove_locked {fs : FS} {p : FPath} (hf : isfileB fs p = true)
    (hl : lockedAt fs p = true) : osRemove fs p = .error (.permission p) := by
  obtain ⟨e, hL, hnd⟩ := exists_entry_of_isfileB hf
  rcases osRemove_spec fs p with ⟨h1, _⟩ | ⟨e', h1, hd', _⟩ |
      ⟨e', h1, _, _, h2⟩ | ⟨e', h1, _, hl', h2⟩
  · rw [h1] at hL; cases hL
  · rw [h1] at hL
    have he := Option.some.inj hL
    subst he
    exact absurd hd' hnd
  · exact h2
  · unfold lockedAt at hl
    rw [h1] at hl
    simp only [] at hl
    rw [hl'] at hl
    cases hl

theorem sweepList_append :
    ∀ (l1 l2 : List FPath) (fs : FS) (n : Nat),
      sweepList fs (l1 ++ l2) n =
        match sweepList fs l1 n with
        | (fs1, n1, none) => sweepList fs1 l2 n1
        | r => r := by
  intro l1
  induction l1 with
  | nil => intro l2 fs n; rfl
  | cons p ps ih =>
    intro l2 fs n
    rw [List.cons_append, sweepList_cons, sweepList_cons]
    by_cases hg : (isfileB fs p && matchesExt p) = true
    · rw [if_pos hg, if_pos hg]
      cases hR : osRemove fs p with
      | error e => rfl
      | ok fs' => exact ih l2 fs' (n + 1)
    · rw [if_neg hg, if_neg hg]
      exact ih l2 fs n

theorem sweepTrees_no_error (fs : FS) (hu : unlocked fs) :
    (sweepTrees fs).2.2 = none := by
  rcases h : sweepList fs (walkFiles fs ntRoot) 0 with ⟨fa, na, ea⟩
  have hsa : fa.Sublist fs := by
    have := sweepList_sublist (walkFiles fs ntRoot) fs 0
    rw [h] at this; exact this
  have hea : ea = none := by
    have := sweepList_no_error (walkFiles fs ntRoot) fs 0 hu
    rw [h] at this; exact this
  subst hea
  rw [sweepTrees_eq, h]
  exact sweepList_no_error (walkFiles fa exRoot) fa na
    (unlocked_sublist hsa hu)

theorem sweepTrees_lookupE_of_not_matched (fs : FS) (q : FPath)
    (hq : matchesExt q = false) :
    lookupE (sweepTrees fs).1 q = lookupE fs q := by
  rcases h : sweepList fs (walkFiles fs ntRoot) 0 with ⟨fa, na, ea⟩
  have h1 : lookupE fa q = lookupE fs q := by
    have := sweepList_lookupE_of_not_matched (walkFiles fs ntRoot) fs 0 q hq
    rw [h] at this; exact this
  rw [sweepTrees_eq, h]
  cases ea with
  | none =>
    show lookupE (sweepList fa (walkFiles fa exRoot) na).1 q = lookupE fs q
    rw [sweepList_lookupE_of_not_matched (walkFiles fa exRoot) fa na q hq, h1]
  | some e => exact h1

theorem sweepTrees_length (fs : FS) (hw : wfFS fs) :
    (sweepTrees fs).1.length + (sweepTrees fs).2.1 = fs.length := by
  rcases h : sweepList fs (walkFiles fs ntRoot) 0 with ⟨fa, na, ea⟩
  have hsa : fa.Sublist fs := by
    have := sweepList_sublist (walkFiles fs ntRoot) fs 0
    rw [h] at this; exact this
  have hlen1 : fa.length + na = fs.length + 0 := by
    have := sweepList_length (walkFiles fs ntRoot) fs 0 hw
    rw [h] at this; exact this
  rw [sweepTrees_eq, h]
  cases ea with
  | none =>
    show (sweepList fa (walkFiles fa exRoot) na).1.length +
      (sweepList fa (walkFiles fa exRoot) na).2.1 = fs.length
    have := sweepList_length (walkFiles fa exRoot) fa na
      (wfFS_sublist hsa hw)
    omega
  | some e =>
    show fa.length + na = fs.length
    omega

theorem mem_properPrefixes_of_strict :
    ∀ (top p : FPath), leadsTo top p = true → top ≠ p →
      top ∈ properPrefixes p := by
  intro top
  induction top with
  | nil =>
    intro p _ hne
    cases p with
    | nil => exact absurd rfl hne
    | cons b bs => simp [properPrefixes]
  | cons a as ih =>
    intro p hl hne
    cases p with
    | nil => cases hl
    | cons b bs =>
      have hab : a = b := by
        have := (and_true_split hl).1
        simpa using this
      subst hab
      have htail : leadsTo as bs = true := (and_true_split hl).2
      have hnetail : as ≠ bs := fun he => hne (by rw [he])
      have hmem := ih bs htail hnetail
      simp only [properPrefixes, List.mem_cons, List.mem_map]
      exact Or.inr ⟨as, hmem, rfl⟩

theorem walkFiles_of_absent {fs : FS} {top : FPath}
    (h : lookupE fs top = none) : walkFiles fs top = [] := by
  unfold walkFiles
  refine List.map_eq_nil.mpr (List.filter_eq_nil.mpr ?_)
  intro e he hq
  have hsu := strictUnder_of_walkQual hq
  have hne : top ≠ e.path := by
    have := (and_true_split hsu).2
    simpa using this
  have hmem := mem_properPrefixes_of_strict top e.path
    (and_true_split hsu).1 hne
  have hanc := walkQual_ancestors hq top hmem (leadsTo_refl top)
  simp [lookupN, h] at hanc

/-! ### Prefix membership and subtree disjointness helpers -/

theorem leadsTo_of_mem_properPrefixes :
    ∀ (p q : FPath), q ∈ properPrefixes p → leadsTo q p = true := by
  intro p
  induction p with
  | nil => intro q hq; cases hq
  | cons a as ih =>
    intro q hq
    simp only [properPrefixes, List.mem_cons, List.mem_map] at hq
    rcases hq with rfl | ⟨q', hq', rfl⟩
    · rfl
    · show (a == a && leadsTo q' as) = true
      rw [ih q' hq']
      simp

theorem leadsTo_nt_ex_absurd {p : FPath} (h1 : leadsTo ntRoot p = true)
    (h2 : leadsTo exRoot p = true) : False := by
  cases p with
  | nil => cases h1
  | cons a as =>
    have e1 : ("nautilus_trader" == a) = true := (and_true_split h1).1
    have e2 : ("examples" == a) = true := (and_true_split h2).1
    have e1' : "nautilus_trader" = a := by simpa using e1
    have e2' : "examples" = a := by simpa using e2
    rw [← e1'] at e2'
    exact absurd e2' (by decide)

theorem walkQual_symlink {fs : FS} {top sL tpath : FPath} {tE : Entry}
    (hanc : ∀ q ∈ properPrefixes sL, q ≠ [] → lookupN fs q = some Node.dir)
    (hst : strictUnder top sL = true)
    (hsym : lookupN fs sL = some (Node.symlink tpath))
    (htgt : lookupE fs tpath = some tE) (htf : isRegularFile tE.node = true)
    (htopne : top ≠ []) :
    walkQual fs top sL = true := by
  obtain ⟨x, xs, rfl⟩ : ∃ y ys, top = y :: ys := by
    cases top with
    | nil => exact absurd rfl htopne
    | cons y ys => exact ⟨y, ys, rfl⟩
  unfold walkQual
  have h2 : (properPrefixes sL).all
      (fun q => !(leadsTo (x :: xs) q) || (lookupN fs q == some Node.dir)) =
      true := by
    rw [List.all_eq_true]
    intro q hq
    by_cases hl : leadsTo (x :: xs) q = true
    · rw [hl, hanc q hq (leadsTo_cons_ne_nil hl)]
      simp
    · have hlf : leadsTo (x :: xs) q = false := by simpa using hl
      rw [hlf]
      simp
  rw [hst, h2, isdirB_of_symlink_file hsym htgt htf]
  rfl

/-! ### File-phase abort on any non-absence failure -/

theorem removeListedFiles_err_of_bad :
    ∀ (ts : List String) (fs : FS) (t : String), t ∈ ts →
      (lookupN fs [t] = some Node.dir ∨ lockedAt fs [t] = true) →
      ∃ er, (removeListedFiles fs ts).2 = some er := by
  intro ts
  induction ts with
  | nil => intro fs t ht; cases ht
  | cons t0 rest ih =>
    intro fs t ht hbad
    rcases tryRemove_spec fs t0 with ⟨habs, h1⟩ | ⟨e, _, _, h1⟩ |
        ⟨e, _, _, _, h1⟩ | ⟨e, he, hnd, hl, h1⟩ <;>
      rw [removeListedFiles_cons, h1]
    · by_cases htt : t = t0
      · subst htt
        rcases hbad with hd | hlk
        · rw [lookupN, habs] at hd; cases hd
        · unfold lockedAt at hlk
          rw [habs] at hlk
          cases hlk
      · have hmem : t ∈ rest := by
          rcases List.mem_cons.mp ht with h | h
          · exact absurd h htt
          · exact h
        exact ih fs t hmem hbad
    · exact ⟨_, rfl⟩
    · exact ⟨_, rfl⟩
    · by_cases htt : t = t0
      · subst htt
        rcases hbad with hd | hlk
        · rw [lookupN, he] at hd
          injection hd with hd'
          exact absurd hd' hnd
        · unfold lockedAt at hlk
          rw [he] at hlk
          simp only [] at hlk
          rw [hl] at hlk
          cases hlk
      · have hmem : t ∈ rest := by
          rcases List.mem_cons.mp ht with h | h
          · exact absurd h htt
          · exact h
        apply ih (removePath fs [t0]) t hmem
        have hne : ([t] : FPath) ≠ [t0] := by simp [htt]
        rcases hbad with hd | hlk
        · left
          show (lookupE (removePath fs [t0]) [t]).map (·.node) = some Node.dir
          rw [lookupE_removePath_ne fs hne]
          exact hd
        · right
          unfold lockedAt
          rw [lookupE_removePath_ne fs hne]
          unfold lockedAt at hlk
          exact hlk

/-! ### Claims -/

/-- C1: On a well-formed project tree (no duplicate paths, every
ancestor present as a real directory) with no symbolic links and no
permission-locked entries, the extension sweep deletes exactly those
regular files under the two subtrees `root/nautilus_trader/` and
`root/examples/` whose rendered path ends with one of the literal
configured suffixes (case-sensitive suffix match, not a dotted-extension
parse), raises no error, and the reported count equals the total number
of files so deleted, accumulated across both subtrees. -/
theorem claim1_extension_sweep_exact (fs : FS) (hw : wfFS fs)
    (hns : noSymlinks fs) (hu : unlocked fs) (hg : goodTree fs) :
    sweepTrees fs =
      (fs.filter (fun e => !(specSweepTarget e)),
       (fs.filter specSweepTarget).length, none) :=
  sweepTrees_clean fs hw hns hu hg

theorem claim1_witness :
    (wfFS demoFS ∧ noSymlinks demoFS ∧ unlocked demoFS ∧ goodTree demoFS) ∧
    sweepTrees demoFS =
      (demoFS.filter (fun e => !(specSweepTarget e)),
       (demoFS.filter specSweepTarget).length, none) :=
  ⟨⟨by decide, by decide, by decide, by decide⟩,
   claim1_extension_sweep_exact demoFS (by decide) (by decide) (by decide)
     (by decide)⟩

/-- C2 counterexample: in `symlinkFS` the symbolic link
`nautilus_trader/foo.so` points at the regular file `target.txt`, its
name ends in `.so`, and the sweep DELETES the link — refuting the claim
that after the sweep both the symlink and its target still exist
(`os.path.isfile` follows symlinks, so the link passes the "is regular
file" check). -/
theorem claim2_counterexample :
    lookupN symlinkFS ["nautilus_trader", "foo.so"] =
      some (Node.symlink ["target.txt"]) ∧
    lookupN symlinkFS ["target.txt"] = some (Node.file "data") ∧
    matchesExt ["nautilus_trader", "foo.so"] = true ∧
    lookupE (sweepTrees symlinkFS).1 ["nautilus_trader", "foo.so"] = none :=
  ⟨by decide, by decide, by decide, by decide⟩

/-- C2 amended: a symbolic link anywhere under either configured
subtree (its ancestors real directories, as in any actual tree) whose
name ends with a configured suffix and which resolves to a regular file
IS deleted by the sweep (`os.path.isfile` follows symlinks, so the link
is eligible and `os.remove` unlinks the link itself); the link's target,
lying outside both swept subtrees, is not deleted, and the sweep
completes without error. -/
theorem claim2_amended (fs : FS) (sL tpath : FPath) (tE : Entry)
    (hu : unlocked fs)
    (hanc : ∀ q ∈ properPrefixes sL, q ≠ [] → lookupN fs q = some Node.dir)
    (hunder : strictUnder ntRoot sL = true ∨ strictUnder exRoot sL = true)
    (hsym : lookupN fs sL = some (Node.symlink tpath))
    (htgt : lookupE fs tpath = some tE) (htf : isRegularFile tE.node = true)
    (hm : matchesExt sL = true)
    (ht1 : leadsTo ntRoot tpath = false)
    (ht2 : leadsTo exRoot tpath = false) :
    ∃ fs' n, sweepTrees fs = (fs', n, none) ∧
      lookupE fs' sL = none ∧ lookupE fs' tpath = some tE := by
  rcases hunder with hst | hst
  · -- the link lies under nautilus_trader/: the first walk deletes it
    have hqual : walkQual fs ntRoot sL = true :=
      walkQual_symlink hanc hst hsym htgt htf (by decide)
    obtain ⟨eL, heL, heLn⟩ : ∃ e, lookupE fs sL = some e ∧
        e.node = Node.symlink tpath := by
      cases hL : lookupE fs sL with
      | none => simp [lookupN, hL] at hsym
      | some e =>
        refine ⟨e, rfl, ?_⟩
        have := hsym
        unfold lookupN at this
        rw [hL] at this
        simpa using this
    have hmem : sL ∈ walkFiles fs ntRoot :=
      mem_walkFiles.mpr ⟨eL, (mem_of_lookupE heL).1, (mem_of_lookupE heL).2,
        hqual⟩
    have hnt1 : ∀ q ∈ walkFiles fs ntRoot, q ≠ tpath := by
      intro q hq he
      subst he
      obtain ⟨e, _, rfl, hqual'⟩ := mem_walkFiles.mp hq
      have hsu := strictUnder_of_walkQual hqual'
      have hlt := (and_true_split hsu).1
      rw [ht1] at hlt
      cases hlt
    obtain ⟨fa, na, hres1, hsl1, htp1⟩ :=
      sweepList_removes_symlink (walkFiles fs ntRoot) fs 0 sL tpath tE hu
        hsym htgt htf hm hmem hnt1
    have hsa : fa.Sublist fs := by
      have := sweepList_sublist (walkFiles fs ntRoot) fs 0
      rw [hres1] at this; exact this
    have hua : unlocked fa := unlocked_sublist hsa hu
    rcases hres2 : sweepList fa (walkFiles fa exRoot) na with ⟨fb, nb, eb⟩
    have heb : eb = none := by
      have := sweepList_no_error (walkFiles fa exRoot) fa na hua
      rw [hres2] at this; exact this
    subst heb
    refine ⟨fb, nb, ?_, ?_, ?_⟩
    · rw [sweepTrees_eq, hres1]
      exact hres2
    · have hsub : fb.Sublist fa := by
        have := sweepList_sublist (walkFiles fa exRoot) fa na
        rw [hres2] at this; exact this
      exact lookupE_none_of_sublist hsub hsl1
    · have hnm : tpath ∉ walkFiles fa exRoot := by
        intro hq
        obtain ⟨e, _, hpe, hqual'⟩ := mem_walkFiles.mp hq
        have hsu := strictUnder_of_walkQual hqual'
        have hlt := (and_true_split hsu).1
        rw [ht2] at hlt
        cases hlt
      have hpre := sweepList_lookupE_of_not_mem (walkFiles fa exRoot) fa na
        tpath hnm
      rw [hres2] at hpre
      rw [htp1] at hpre
      exact hpre
  · -- the link lies under examples/: the first walk leaves it alone and
    -- the second walk deletes it
    have hstnt : strictUnder ntRoot sL = false := by
      cases hh : strictUnder ntRoot sL
      · rfl
      · rw [strictUnder_nt_ex_false hh] at hst
        cases hst
    rcases hres1 : sweepList fs (walkFiles fs ntRoot) 0 with ⟨fa, na, ea⟩
    have hea : ea = none := by
      have := sweepList_no_error (walkFiles fs ntRoot) fs 0 hu
      rw [hres1] at this; exact this
    subst hea
    have hsa : fa.Sublist fs := by
      have := sweepList_sublist (walkFiles fs ntRoot) fs 0
      rw [hres1] at this; exact this
    have hua : unlocked fa := unlocked_sublist hsa hu
    have hnmem_sL : sL ∉ walkFiles fs ntRoot := by
      intro hq
      obtain ⟨e, _, _, hqual'⟩ := mem_walkFiles.mp hq
      have hsu := strictUnder_of_walkQual hqual'
      rw [hstnt] at hsu
      cases hsu
    have hpres_sL : lookupE fa sL = lookupE fs sL := by
      have := sweepList_lookupE_of_not_mem (walkFiles fs ntRoot) fs 0 sL
        hnmem_sL
      rw [hres1] at this; exact this
    have hnmem_t : tpath ∉ walkFiles fs ntRoot := by
      intro hq
      obtain ⟨e, _, _, hqual'⟩ := mem_walkFiles.mp hq
      have hsu := strictUnder_of_walkQual hqual'
      have hlt := (and_true_split hsu).1
      rw [ht1] at hlt
      cases hlt
    have hpres_t : lookupE fa tpath = lookupE fs tpath := by
      have := sweepList_lookupE_of_not_mem (walkFiles fs ntRoot) fs 0 tpath
        hnmem_t
      rw [hres1] at this; exact this
    have hexsL : leadsTo exRoot sL = true := (and_true_split hst).1
    have hanc' : ∀ q ∈ properPrefixes sL, q ≠ [] →
        lookupN fa q = some Node.dir := by
      intro q hq hqne
      have hnmem_q : q ∉ walkFiles fs ntRoot := by
        intro hqq
        obtain ⟨e, _, _, hqual'⟩ := mem_walkFiles.mp hqq
        have hsu := strictUnder_of_walkQual hqual'
        have hlt := (and_true_split hsu).1
        have hqs := leadsTo_of_mem_properPrefixes sL q hq
        exact leadsTo_nt_ex_absurd (leadsTo_iff.mpr
          ((leadsTo_iff.mp hlt).trans (leadsTo_iff.mp hqs))) hexsL
      have hpre_q : lookupE fa q = lookupE fs q := by
        have := sweepList_lookupE_of_not_mem (walkFiles fs ntRoot) fs 0 q
          hnmem_q
        rw [hres1] at this; exact this
      show (lookupE fa q).map (·.node) = some Node.dir
      rw [hpre_q]
      exact hanc q hq hqne
    have hsymA : lookupN fa sL = some (Node.symlink tpath) := by
      show (lookupE fa sL).map (·.node) = some (Node.symlink tpath)
      rw [hpres_sL]
      exact hsym
    have htgtA : lookupE fa tpath = some tE := by
      rw [hpres_t]
      exact htgt
    have hqualA : walkQual fa exRoot sL = true :=
      walkQual_symlink hanc' hst hsymA htgtA htf (by decide)
    obtain ⟨eL, heL, heLn⟩ : ∃ e, lookupE fa sL = some e ∧
        e.node = Node.symlink tpath := by
      cases hL : lookupE fa sL with
      | none => simp [lookupN, hL] at hsymA
      | some e =>
        refine ⟨e, rfl, ?_⟩
        have := hsymA
        unfold lookupN at this
        rw [hL] at this
        simpa using this
    have hmem2 : sL ∈ walkFiles fa exRoot :=
      mem_walkFiles.mpr ⟨eL, (mem_of_lookupE heL).1, (mem_of_lookupE heL).2,
        hqualA⟩
    have hnt2 : ∀ q ∈ walkFiles fa exRoot, q ≠ tpath := by
      intro q hq he
      subst he
      obtain ⟨e, _, _, hqual'⟩ := mem_walkFiles.mp hq
      have hsu := strictUnder_of_walkQual hqual'
      have hlt := (and_true_split hsu).1
      rw [ht2] at hlt
      cases hlt
    obtain ⟨fb, nb, hres2, hsl2, htp2⟩ :=
      sweepList_removes_symlink (walkFiles fa exRoot) fa na sL tpath tE hua
        hsymA htgtA htf hm hmem2 hnt2
    refine ⟨fb, nb, ?_, hsl2, htp2⟩
    rw [sweepTrees_eq, hres1]
    exact hres2

theorem claim2_witness :
    ∃ fs' n, sweepTrees symlinkFS = (fs', n, none) ∧
      lookupE fs' ["nautilus_trader", "foo.so"] = none ∧
      lookupE fs' ["target.txt"] =
        some ⟨["target.txt"], Node.file "data", false⟩ :=
  claim2_amended symlinkFS ["nautilus_trader", "foo.so"] ["target.txt"]
    ⟨["target.txt"], Node.file "data", false⟩ (by decide) (by decide)
    (Or.inl (by decide)) (by decide) (by decide) (by decide) (by decide)
    (by decide) (by decide)

/-- C4: file-list phase semantics: (1) when no listed root path is a
directory or permission-locked (so no deletion attempt can fail other
than by absence), every listed name present as a regular file before the
run is absent from the run's final filesystem; (2) an absent listed name
is silently skipped — the guarded `os.remove` produces no error and no
filesystem change; (3) any deletion failure other than absence — a
directory at the listed path (`IsADirectoryError`) or a
permission-locked entry there (`PermissionError`), the model's two
non-absence failure kinds — propagates uncaught and the run aborts with
an error. -/
theorem claim4_file_phase (fs : FS) :
    ((∀ t ∈ FILES_TO_CLEAN, lookupN fs [t] ≠ some Node.dir ∧
        lockedAt fs [t] = false) →
      ∀ t ∈ FILES_TO_CLEAN, ∀ c, lookupN fs [t] = some (Node.file c) →
        lookupE (cleanupRun fs).1 [t] = none) ∧
    (∀ t ∈ FILES_TO_CLEAN, lookupE fs [t] = none →
      tryRemove fs t = (fs, none)) ∧
    (∀ t ∈ FILES_TO_CLEAN,
      lookupN fs [t] = some Node.dir ∨ lockedAt fs [t] = true →
      ∃ er, (cleanupRun fs).2.2 = some er) := by
  refine ⟨?_, ?_, ?_⟩
  · intro hsafe t ht c _
    have hok := removeListedFiles_ok_of_safe FILES_TO_CLEAN fs hsafe
    rcases hA : removeListedFiles fs FILES_TO_CLEAN with ⟨fsA, rA⟩
    have hrA : rA = none := by
      rw [hA] at hok; exact hok
    subst hrA
    have habs := removeListedFiles_ok_absent FILES_TO_CLEAN fs fsA hA t ht
    rw [cleanupRun_phase1_ok hA]
    rcases hB : sweepTrees (removeListedDirs fsA) with ⟨fsB, nB, eB⟩
    have hsubB : fsB.Sublist fsA := by
      have := sweepTrees_sublist (removeListedDirs fsA)
      rw [hB] at this
      exact this.trans (removeListedDirs_sublist fsA)
    cases eB with
    | none =>
      rw [runAfterFiles_sweep_ok hB]
      exact lookupE_none_of_sublist hsubB habs
    | some e =>
      rw [runAfterFiles_sweep_err hB]
      exact lookupE_none_of_sublist hsubB habs
  · intro t _ habs
    exact tryRemove_ok_absent habs
  · intro t ht hbad
    obtain ⟨er, her⟩ := removeListedFiles_err_of_bad FILES_TO_CLEAN fs t ht hbad
    rcases hA : removeListedFiles fs FILES_TO_CLEAN with ⟨fsA, rA⟩
    have hrA : rA = some er := by
      rw [hA] at her; exact her
    subst hrA
    refine ⟨er, ?_⟩
    rw [cleanupRun_phase1_err hA]

theorem claim4_witness :
    lookupE (cleanupRun demoFS).1 [".coverage"] = none ∧
    tryRemove demoFS "dump.rdb" = (demoFS, none) ∧
    (∃ er, (cleanupRun dirConflictFS).2.2 = some er) ∧
    (∃ er, (cleanupRun lockedCovFS).2.2 = some er) :=
  ⟨(claim4_file_phase demoFS).1 (by decide) ".coverage" (by decide) "cov"
     (by decide),
   (claim4_file_phase demoFS).2.1 "dump.rdb" (by decide) (by decide),
   (claim4_file_phase dirConflictFS).2.2 "coverage.xml" (by decide)
     (Or.inl (by decide)),
   (claim4_file_phase lockedCovFS).2.2 ".coverage" (by decide)
     (Or.inr (by decide))⟩

/-- C5: directory-list phase: (1) on a well-formed tree with no
permission-locked entries, for every listed name present as a directory,
`root/name` and everything beneath it is gone after the phase; (2) the
phase suppresses every error and can never abort the run: whenever the
file phase completes, the run always reaches the extension sweep with
the directory phase's result. -/
theorem claim5_dir_phase (fs : FS) :
    (wfFS fs → unlocked fs →
      ∀ t ∈ DIRS_TO_CLEAN, lookupN fs t = some Node.dir →
        ∀ q, leadsTo t q = true → lookupE (removeListedDirs fs) q = none) ∧
    (∀ fsA, removeListedFiles fs FILES_TO_CLEAN = (fsA, none) →
      cleanupRun fs = runAfterFiles fsA) := by
  constructor
  · intro hw hu t ht hd q hq
    have hpair : ∀ t1 ∈ DIRS_TO_CLEAN, ∀ t2 ∈ DIRS_TO_CLEAN,
        t2 = t1 ∨ (leadsTo t2 t1 = false ∧ leadsTo t1 t2 = false) := by
      decide
    exact foldl_rmtree_none DIRS_TO_CLEAN fs t q ht hw hu hd hq
      (fun t' ht' => hpair t ht t' ht')
  · intro fsA hA
    exact cleanupRun_phase1_ok hA

theorem claim5_witness :
    lookupE (removeListedDirs buildDirFS) ["build", "x.txt"] = none ∧
    cleanupRun buildDirFS = runAfterFiles buildDirFS :=
  ⟨(claim5_dir_phase buildDirFS).1 (by decide) (by decide) ["build"]
     (by decide) (by decide) ["build", "x.txt"] (by decide),
   (claim5_dir_phase buildDirFS).2 buildDirFS (by decide)⟩

/-- C6 counterexample: with `coverage.xml` existing as a directory, the
file-phase `os.remove` raises `IsADirectoryError`, which the
`except FileNotFoundError` guard does not catch: the run ABORTS —
refuting the claim that a mismatched-type deletion attempt is a harmless
no-op that does not abort the run. -/
theorem claim6_counterexample :
    lookupN dirConflictFS ["coverage.xml"] = some Node.dir ∧
    cleanupRun dirConflictFS =
      (dirConflictFS, none, some (OSErr.isADirectory ["coverage.xml"])) :=
  ⟨by decide, by decide⟩

/-- C6 amended: of the two mismatched-type deletion attempts on the
overlapping entries, only the directory-phase one is harmless: `rmtree`
on a path holding a regular file is a suppressed no-op, but the
file-phase `os.remove` on a path holding a directory raises an uncaught
`IsADirectoryError` and aborts the run. -/
theorem claim6_overlap (fs : FS) :
    (∀ p c, lookupN fs p = some (Node.file c) → rmtreeIgnore fs p = fs) ∧
    (∀ t ∈ FILES_TO_CLEAN, lookupN fs [t] = some Node.dir →
      ∃ er, (cleanupRun fs).2.2 = some er) := by
  constructor
  · intro p c hp
    apply rmtreeIgnore_of_not_dir
    rw [hp]
    simp
  · intro t ht hd
    obtain ⟨er, her⟩ := removeListedFiles_err_of_dir FILES_TO_CLEAN fs t ht hd
    rcases hA : removeListedFiles fs FILES_TO_CLEAN with ⟨fsA, rA⟩
    have hrA : rA = some er := by
      rw [hA] at her; exact her
    subst hrA
    refine ⟨er, ?_⟩
    rw [cleanupRun_phase1_err hA]

theorem claim6_witness :
    rmtreeIgnore fileConflictFS ["coverage.xml"] = fileConflictFS ∧
    ∃ er, (cleanupRun dirConflictFS).2.2 = some er :=
  ⟨(claim6_overlap fileConflictFS).1 ["coverage.xml"] "xml" (by decide),
   (claim6_overlap dirConflictFS).2 "coverage.xml" (by decide) (by decide)⟩

/-- C7: frame property of the extension sweep: on a well-formed tree, a
regular file under one of the configured subtrees whose path does not
end with any configured suffix still exists after the sweep with its
entry (contents included) unchanged, and the reported count counts
exactly the deleted entries (final size plus count equals initial size),
so untouched files are not included in it. -/
theorem claim7_nonmatching_untouched (fs : FS) (p : FPath) (e : Entry)
    (hw : wfFS fs)
    (hund : strictUnder ntRoot p = true ∨ strictUnder exRoot p = true)
    (hfile : lookupE fs p = some e) (hreg : isRegularFile e.node = true)
    (hnm : matchesExt p = false) :
    lookupE (sweepTrees fs).1 p = some e ∧
    (sweepTrees fs).1.length + (sweepTrees fs).2.1 = fs.length := by
  constructor
  · rw [sweepTrees_lookupE_of_not_matched fs p hnm]
    exact hfile
  · exact sweepTrees_length fs hw

theorem claim7_witness :
    lookupE (sweepTrees demoFS).1 ["nautilus_trader", "keep.py"] =
      some ⟨["nautilus_trader", "keep.py"], Node.file "print(1)", false⟩ ∧
    (sweepTrees demoFS).1.length + (sweepTrees demoFS).2.1 =
      demoFS.length :=
  claim7_nonmatching_untouched demoFS ["nautilus_trader", "keep.py"]
    ⟨["nautilus_trader", "keep.py"], Node.file "print(1)", false⟩
    (by decide) (Or.inl (by decide)) (by decide) (by decide) (by decide)

/-- C8: if a sweep subtree root is absent from the filesystem, the walk
over it enumerates nothing, so that sweep deletes nothing, raises no
error and contributes 0 to the count; with both roots absent the whole
extension sweep is a silent no-op reporting 0. -/
theorem claim8_missing_subtree (fs : FS) :
    (lookupE fs ntRoot = none → walkFiles fs ntRoot = [] ∧
      sweepList fs (walkFiles fs ntRoot) 0 = (fs, 0, none)) ∧
    (lookupE fs exRoot = none → walkFiles fs exRoot = [] ∧
      ∀ n, sweepList fs (walkFiles fs exRoot) n = (fs, n, none)) ∧
    (lookupE fs ntRoot = none → lookupE fs exRoot = none →
      sweepTrees fs = (fs, 0, none)) := by
  refine ⟨?_, ?_, ?_⟩
  · intro h
    have hnil := walkFiles_of_absent h
    rw [hnil]
    exact ⟨rfl, rfl⟩
  · intro h
    have hnil := walkFiles_of_absent h
    rw [hnil]
    exact ⟨rfl, fun n => rfl⟩
  · intro h1 h2
    have hn1 := walkFiles_of_absent h1
    have hn2 := walkFiles_of_absent h2
    rw [sweepTrees_eq, hn1]
    show sweepList fs (walkFiles fs exRoot) 0 = (fs, 0, none)
    rw [hn2]
    rfl

theorem claim8_witness :
    (walkFiles noSubtreeFS ntRoot = [] ∧
      sweepList noSubtreeFS (walkFiles noSubtreeFS ntRoot) 0 =
        (noSubtreeFS, 0, none)) ∧
    sweepTrees noSubtreeFS = (noSubtreeFS, 0, none) :=
  ⟨(claim8_missing_subtree noSubtreeFS).1 (by decide),
   (claim8_missing_subtree noSubtreeFS).2.2 (by decide) (by decide)⟩

/-- C9: the directory-list phase removes only paths at or below a
constructed `root/name` target: any path not extending one of the listed
targets has an identical lookup before and after the phase — in
particular a `__pycache__` nested deeper than directly under the root is
untouched. -/
theorem claim9_dir_phase_frame (fs : FS) (q : FPath)
    (h : ∀ t ∈ DIRS_TO_CLEAN, leadsTo t q = false) :
    lookupE (removeListedDirs fs) q = lookupE fs q :=
  foldl_rmtree_lookupE_not_under DIRS_TO_CLEAN fs q h

theorem claim9_witness :
    lookupE (removeListedDirs nestedCacheFS) ["sub", "__pycache__"] =
      lookupE nestedCacheFS ["sub", "__pycache__"] :=
  claim9_dir_phase_frame nestedCacheFS ["sub", "__pycache__"] (by decide)

/-- C10: the extension sweep is unguarded and non-atomic: (1) a run that
ends with an uncaught error never prints the final count; (2) if the
sweep reaches a matching file whose unlink fails (a permission-locked
entry), the error propagates at once — the files deleted before the
failure stay deleted (the state reached so far is the final state) and
the rest of the walk list is never processed; (3) a sweep error becomes
the whole run's error. -/
theorem claim10_sweep_unguarded (fs : FS) :
    (∀ fs' c e, cleanupRun fs = (fs', c, some e) → c = none) ∧
    (∀ l1 p l2 n fs1 n1, sweepList fs l1 n = (fs1, n1, none) →
      isfileB fs1 p = true → matchesExt p = true → lockedAt fs1 p = true →
      sweepList fs (l1 ++ p :: l2) n = (fs1, n1, some (.permission p))) ∧
    (∀ fsA fsS nS e, removeListedFiles fs FILES_TO_CLEAN = (fsA, none) →
      sweepTrees (removeListedDirs fsA) = (fsS, nS, some e) →
      cleanupRun fs = (fsS, none, some e)) := by
  refine ⟨?_, ?_, ?_⟩
  · intro fs' c e h
    rcases hA : removeListedFiles fs FILES_TO_CLEAN with ⟨fsA, rA⟩
    cases rA with
    | some e1 =>
      rw [cleanupRun_phase1_err hA] at h
      have := congrArg (fun x => x.2.1) h
      simp at this
      exact this.symm
    | none =>
      rw [cleanupRun_phase1_ok hA] at h
      rcases hB : sweepTrees (removeListedDirs fsA) with ⟨fsB, nB, eB⟩
      cases eB with
      | some e2 =>
        rw [runAfterFiles_sweep_err hB] at h
        have := congrArg (fun x => x.2.1) h
        simp at this
        exact this.symm
      | none =>
        rw [runAfterFiles_sweep_ok hB] at h
        have := congrArg (fun x => x.2.2) h
        simp at this
  · intro l1 p l2 n fs1 n1 h hf hm hl
    rw [sweepList_append, h]
    show sweepList fs1 (p :: l2) n1 = (fs1, n1, some (.permission p))
    rw [sweepList_cons, if_pos (by simp [hf, hm]), osRemove_locked hf hl]
  · intro fsA fsS nS e hA hB
    rw [cleanupRun_phase1_ok hA, runAfterFiles_sweep_err hB]

theorem claim10_witness :
    (none : Option Nat) = none ∧
    sweepList lockedFS ([] ++ ["nautilus_trader", "a.so"] :: []) 0 =
      (lockedFS, 0, some (.permission ["nautilus_trader", "a.so"])) ∧
    cleanupRun lockedFS =
      (lockedFS, none, some (.permission ["nautilus_trader", "a.so"])) :=
  ⟨(claim10_sweep_unguarded dirConflictFS).1 dirConflictFS none
     (.isADirectory ["coverage.xml"]) (by decide),
   (claim10_sweep_unguarded lockedFS).2.1 [] ["nautilus_trader", "a.so"] []
     0 lockedFS 0 (by decide) (by decide) (by decide) (by decide),
   (claim10_sweep_unguarded lockedFS).2.2 lockedFS lockedFS 0
     (.permission ["nautilus_trader", "a.so"]) (by decide) (by decide)⟩

/-- C3: the procedure is idempotent on a well-formed, symlink-free tree
with no permission-locked entries: if one full run completes, printing
count `n` and ending in state `fs1`, then a second run on `fs1` changes
nothing — it completes with the same end state and prints an
extension-match count of 0. -/
theorem claim3_idempotent (fs fs1 : FS) (n : Nat) (hw : wfFS fs)
    (hns : noSymlinks fs) (hu : unlocked fs)
    (h1 : cleanupRun fs = (fs1, some n, none)) :
    cleanupRun fs1 = (fs1, some 0, none) := by
  rcases hA : removeListedFiles fs FILES_TO_CLEAN with ⟨fsA, rA⟩
  cases rA with
  | some e =>
    rw [cleanupRun_phase1_err hA] at h1
    have := congrArg (fun x => x.2.1) h1
    simp at this
  | none =>
    rw [cleanupRun_phase1_ok hA] at h1
    rcases hB : sweepTrees (removeListedDirs fsA) with ⟨fsB, nB, eB⟩
    cases eB with
    | some e =>
      rw [runAfterFiles_sweep_err hB] at h1
      have := congrArg (fun x => x.2.1) h1
      simp at this
    | none =>
      rw [runAfterFiles_sweep_ok hB] at h1
      have hfs1 : fs1 = fsB := by
        have := congrArg (fun x => x.1) h1
        simpa using this.symm
      subst hfs1
      -- properties along the chain fs ⊇ fsA ⊇ fsD ⊇ fsB
      have hsubA : fsA.Sublist fs := by
        have := removeListedFiles_sublist FILES_TO_CLEAN fs
        rw [hA] at this; exact this
      have hsubD : (removeListedDirs fsA).Sublist fsA :=
        removeListedDirs_sublist fsA
      have hsubB : fs1.Sublist (removeListedDirs fsA) := by
        have := sweepTrees_sublist (removeListedDirs fsA)
        rw [hB] at this; exact this
      have hwA : wfFS fsA := wfFS_sublist hsubA hw
      have huA : unlocked fsA := unlocked_sublist hsubA hu
      have hwD : wfFS (removeListedDirs fsA) := wfFS_sublist hsubD hwA
      have hnsD : noSymlinks (removeListedDirs fsA) :=
        noSymlinks_sublist (hsubD.trans hsubA) hns
      have huD : unlocked (removeListedDirs fsA) := unlocked_sublist hsubD huA
      -- run 2 / phase 1: all listed files already absent
      have hph1 : removeListedFiles fs1 FILES_TO_CLEAN = (fs1, none) :=
        removeListedFiles_of_all_absent FILES_TO_CLEAN fs1
          (fun t ht => lookupE_none_of_sublist (hsubB.trans hsubD)
            (removeListedFiles_ok_absent FILES_TO_CLEAN fs fsA hA t ht))
      -- run 2 / phase 2: no listed directory remains
      have hph2 : removeListedDirs fs1 = fs1 := by
        show DIRS_TO_CLEAN.foldl (fun f t => rmtreeIgnore f t) fs1 = fs1
        apply foldl_rmtree_id
        intro t ht hd
        obtain ⟨e, he, hnode⟩ : ∃ e, lookupE fs1 t = some e ∧
            e.node = Node.dir := by
          cases hL : lookupE fs1 t with
          | none => simp [lookupN, hL] at hd
          | some y =>
            refine ⟨y, rfl, ?_⟩
            unfold lookupN at hd
            rw [hL] at hd
            simpa using hd
        have hmemB := (mem_of_lookupE he).1
        have hpath := (mem_of_lookupE he).2
        have hmemA : e ∈ fsA := ((hsubB.trans hsubD).subset) hmemB
        have hdA : lookupN fsA t = some Node.dir := by
          have := lookupN_of_mem hwA hmemA
          rw [hpath, hnode] at this
          exact this
        have hpair : ∀ t1 ∈ DIRS_TO_CLEAN, ∀ t2 ∈ DIRS_TO_CLEAN,
            t2 = t1 ∨ (leadsTo t2 t1 = false ∧ leadsTo t1 t2 = false) := by
          decide
        have hnone : lookupE (removeListedDirs fsA) t = none :=
          foldl_rmtree_none DIRS_TO_CLEAN fsA t t ht hwA huA hdA
            (leadsTo_refl t) (fun t' ht' => hpair t ht t' ht')
        have hsome : lookupE (removeListedDirs fsA) t = some e := by
          have := lookupE_of_mem hwD (hsubB.subset hmemB)
          rw [hpath] at this
          exact this
        rw [hnone] at hsome
        cases hsome
      -- decompose the run-1 sweep into its two clean passes
      rcases hC : sweepList (removeListedDirs fsA)
          (walkFiles (removeListedDirs fsA) ntRoot) 0 with ⟨fsC, nC, eC⟩
      have heC : eC = none := by
        have := sweepList_no_error
          (walkFiles (removeListedDirs fsA) ntRoot) (removeListedDirs fsA) 0 huD
        rw [hC] at this; exact this
      subst heC
      have hsubC : fsC.Sublist (removeListedDirs fsA) := by
        have := sweepList_sublist
          (walkFiles (removeListedDirs fsA) ntRoot) (removeListedDirs fsA) 0
        rw [hC] at this; exact this
      have hwC : wfFS fsC := wfFS_sublist hsubC hwD
      have hnsC : noSymlinks fsC := noSymlinks_sublist hsubC hnsD
      have huC : unlocked fsC := unlocked_sublist hsubC huD
      have hBeq : sweepList fsC (walkFiles fsC exRoot) nC = (fs1, nB, none) := by
        have := hB
        rw [sweepTrees_eq, hC] at this
        exact this
      have hclean1 := sweepList_clean
        (walkFiles (removeListedDirs fsA) ntRoot) (removeListedDirs fsA) 0 huD
        (fun p hp => file_of_mem_walkFiles hwD hnsD hp)
        (walkFiles_nodup ntRoot hwD)
      have hfsC : fsC = (removeListedDirs fsA).filter
          (fun e => !(decide
            (e.path ∈ walkFiles (removeListedDirs fsA) ntRoot) &&
            matchesExt e.path)) := by
        rw [hclean1] at hC
        have := congrArg (fun x => x.1) hC
        simpa using this.symm
      have hclean2 := sweepList_clean (walkFiles fsC exRoot) fsC nC huC
        (fun p hp => file_of_mem_walkFiles hwC hnsC hp)
        (walkFiles_nodup exRoot hwC)
      have hfsB : fs1 = fsC.filter
          (fun e => !(decide (e.path ∈ walkFiles fsC exRoot) &&
            matchesExt e.path)) := by
        rw [hclean2] at hBeq
        have := congrArg (fun x => x.1) hBeq
        simpa using this.symm
      have hsubBC : fs1.Sublist fsC := by
        rw [hfsB]; exact List.filter_sublist fsC
      have hwB : wfFS fs1 := wfFS_sublist hsubBC hwC
      have hnsB : noSymlinks fs1 := noSymlinks_sublist hsubBC hnsC
      -- run 2 / phase 3: nothing matching survives the first run
      have hskip1 : ∀ p ∈ walkFiles fs1 ntRoot, matchesExt p = false := by
        intro p hp
        cases hx : matchesExt p with
        | false => rfl
        | true =>
          exfalso
          obtain ⟨e, heB', rfl, _⟩ := mem_walkFiles.mp hp
          have hp1 : e.path ∈ walkFiles fsC ntRoot :=
            mem_walkFiles_of_sublist hsubBC hwC hnsC hp
          have hp2 : e.path ∈ walkFiles (removeListedDirs fsA) ntRoot :=
            mem_walkFiles_of_sublist hsubC hwD hnsD hp1
          have heC' : e ∈ fsC := hsubBC.subset heB'
          rw [hfsC] at heC'
          have hK1 := (List.mem_filter.mp heC').2
          rw [decide_eq_true hp2, hx] at hK1
          simp at hK1
      have hsk1 : sweepList fs1 (walkFiles fs1 ntRoot) 0 = (fs1, 0, none) :=
        sweepList_skip (walkFiles fs1 ntRoot) fs1 0 hskip1
      have hskip2 : ∀ p ∈ walkFiles fs1 exRoot, matchesExt p = false := by
        intro p hp
        cases hx : matchesExt p with
        | false => rfl
        | true =>
          exfalso
          obtain ⟨e, heB', rfl, _⟩ := mem_walkFiles.mp hp
          have hp1 : e.path ∈ walkFiles fsC exRoot :=
            mem_walkFiles_of_sublist hsubBC hwC hnsC hp
          have heB'' := heB'
          rw [hfsB] at heB''
          have hK2 := (List.mem_filter.mp heB'').2
          rw [decide_eq_true hp1, hx] at hK2
          simp at hK2
      have hph3 : sweepTrees fs1 = (fs1, 0, none) := by
        rw [sweepTrees_eq, hsk1]
        show sweepList fs1 (walkFiles fs1 exRoot) 0 = (fs1, 0, none)
        exact sweepList_skip (walkFiles fs1 exRoot) fs1 0 hskip2
      have hph3' : sweepTrees (removeListedDirs fs1) = (fs1, 0, none) := by
        rw [hph2]
        exact hph3
      rw [cleanupRun_phase1_ok hph1, runAfterFiles_sweep_ok hph3']

theorem claim3_witness :
    (wfFS demoFS ∧ noSymlinks demoFS ∧ unlocked demoFS ∧
      cleanupRun demoFS = ((cleanupRun demoFS).1, some 3, none)) ∧
    cleanupRun (cleanupRun demoFS).1 = ((cleanupRun demoFS).1, some 0, none) :=
  ⟨⟨by decide, by decide, by decide, by decide⟩,
   claim3_idempotent demoFS (cleanupRun demoFS).1 3 (by decide) (by decide)
     (by decide) (by decide)⟩

end Cleanup
